import Mathlib

/-!
Verification of the gugu auction-intelligence pipeline.

Shallow embedding of the Python sources under `src/`:
* `sniffer/drop_head_queue.py` (bounded drop-oldest queue),
* `pigeon_socket/bus.py` (single-value snapshot bus),
* `sniffer/flows/registry.py` (topic router),
* `sniffer/mqtt_codec.py` and `sniffer/event_factory.py` (MQTT frame decoding),
* `commons/normalizers.py` (field converters),
* `dao/pigeon_dao.py` (deal-history statistics query),
* `sniffer/pigeon_pids_query/pigeon_bis_query.py` (enrichment / ranking),
* `pigeon_socket/adapters/bidrecord_payload.py` (snapshot payload items).

Python strings are modelled as lists of Unicode scalar values (`PyStr`),
byte buffers as lists of naturals below 256, Python floats appearing in
pure arithmetic as rationals, and Python dicts as total functions with an
explicit default.  Functions that can raise are modelled with `Except` /
`Option`.
-/

/-- A Python `str`, as its sequence of Unicode scalar values. -/
abbrev PyStr := List Nat

/-- The set of code points stripped by Python's `str.strip()` (the
whitespace characters recognised by `str.isspace`). -/
def isPySpace (c : Nat) : Bool :=
  c ∈ [9, 10, 11, 12, 13, 28, 29, 30, 31, 32, 133, 160, 0x1680,
       0x2000, 0x2001, 0x2002, 0x2003, 0x2004, 0x2005, 0x2006, 0x2007,
       0x2008, 0x2009, 0x200A, 0x2028, 0x2029, 0x202F, 0x205F, 0x3000]

/-- Python `str.strip()`: drop leading and trailing whitespace. -/
def pyStrip (s : PyStr) : PyStr :=
  ((s.dropWhile isPySpace).reverse.dropWhile isPySpace).reverse

namespace DropHeadQueue

/-- One `DropHeadQueue.put` (src/sniffer/drop_head_queue.py lines 19-24):
if the queue is full (`asyncio.Queue.full()`, i.e. size has reached the
capacity), the head (oldest) element is removed with `get_nowait` before
the new item is appended at the tail. -/
def put (cap : Nat) (q : List α) (x : α) : List α :=
  if cap ≤ q.length then q.drop 1 ++ [x] else q ++ [x]

/-- A sequence of `put`s by a single sequential producer. -/
def putAll (cap : Nat) (q : List α) (xs : List α) : List α :=
  xs.foldl (put cap) q

theorem put_length_le (cap : Nat) (hcap : 0 < cap) (q : List α) (x : α)
    (h : q.length ≤ cap) : (put cap q x).length ≤ cap := by
  unfold put
  split_ifs with hfull
  · rcases q with _ | ⟨a, q⟩
    · simp at hfull; omega
    · simp at h ⊢; omega
  · simp at h ⊢; omega

theorem putAll_eq_drop (cap : Nat) (hcap : 0 < cap) :
    ∀ (xs q : List α), q.length ≤ cap →
      putAll cap q xs = (q ++ xs).drop (q.length + xs.length - cap) := by
  intro xs
  induction xs with
  | nil =>
    intro q h
    have h0 : q.length - cap = 0 := by omega
    simp [putAll, h0]
  | cons x xs ih =>
    intro q h
    have hstep : putAll cap q (x :: xs) = putAll cap (put cap q x) xs := by
      simp [putAll]
    rw [hstep, ih (put cap q x) (put_length_le cap hcap q x h)]
    by_cases hfull : cap ≤ q.length
    · have hq : q.length = cap := le_antisymm h hfull
      rcases q with _ | ⟨a, q⟩
      · exfalso; simp at hq; omega
      · have hput : put cap (a :: q) x = q ++ [x] := by
          unfold put; rw [if_pos hfull]; rfl
        rw [hput]
        have hl1 : (q ++ [x]).length + xs.length - cap = xs.length := by
          simp at hq ⊢; omega
        have hl2 : (a :: q).length + (x :: xs).length - cap = xs.length + 1 := by
          simp at hq ⊢; omega
        rw [hl1, hl2]
        have e1 : (q ++ [x]) ++ xs = q ++ x :: xs := by simp
        have e2 : (a :: q) ++ x :: xs = a :: (q ++ x :: xs) := rfl
        rw [e1, e2, List.drop_succ_cons]
    · have hput : put cap q x = q ++ [x] := by simp [put, hfull]
      rw [hput]
      have e1 : (q ++ [x]) ++ xs = q ++ x :: xs := by simp
      have e2 : (q ++ [x]).length + xs.length = q.length + (x :: xs).length := by
        simp; omega
      rw [e1, e2]

theorem putAll_length_le (cap : Nat) (hcap : 0 < cap) :
    ∀ (xs q : List α), q.length ≤ cap → (putAll cap q xs).length ≤ cap := by
  intro xs
  induction xs with
  | nil => intro q h; simpa [putAll] using h
  | cons x xs ih =>
    intro q h
    have hstep : putAll cap q (x :: xs) = putAll cap (put cap q x) xs := by
      simp [putAll]
    rw [hstep]
    exact ih _ (put_length_le cap hcap q x h)

end DropHeadQueue

/-- C8: a capacity-`C` drop-head queue keeps exactly the last `C` items.
After enqueuing `C` items (`xs`) followed by `K` more (`ys`) starting from
empty, the queue holds exactly the last `C` enqueued items in enqueue
order; a `put` on a full queue discards the oldest element before
enqueuing; the size never exceeds `C`. -/
theorem dropHeadQueue_keeps_last_C (C K : Nat) (hC : 0 < C)
    (xs ys : List α) (hx : xs.length = C) (hy : ys.length = K) :
    DropHeadQueue.putAll C [] (xs ++ ys) = (xs ++ ys).drop K ∧
    (∀ q : List α, q.length = C → ∀ x,
      DropHeadQueue.put C q x = q.drop 1 ++ [x]) ∧
    (∀ zs : List α, (DropHeadQueue.putAll C [] zs).length ≤ C) := by
  refine ⟨?_, ?_, ?_⟩
  · rw [DropHeadQueue.putAll_eq_drop C hC (xs ++ ys) [] (by simp)]
    simp only [List.nil_append, List.length_nil, List.length_append, hx, hy,
      Nat.zero_add]
    congr 1
    omega
  · intro q hq x
    simp [DropHeadQueue.put, hq]
  · intro zs
    exact DropHeadQueue.putAll_length_le C hC zs [] (by simp)

theorem dropHeadQueue_keeps_last_C_witness :
    DropHeadQueue.putAll 2 ([] : List Nat) ([10, 20] ++ [30]) =
      ([10, 20] ++ [30]).drop 1 :=
  (dropHeadQueue_keeps_last_C 2 1 (by decide) [10, 20] [30] rfl rfl).1

namespace SnapshotBus

/-- State of `SnapshotBus` (src/pigeon_socket/bus.py).  `snapshot` is the
stored value; the `asyncio.Event` objects created over time are numbered
by generation: `gen` is the generation of the current `_event`, and
`isSet g` records whether the generation-`g` event has been `set()`. -/
structure BusState (α : Type) where
  snapshot : Option α
  gen : Nat
  isSet : Nat → Bool

/-- `publish` (bus.py lines 18-22): store the snapshot, `set()` the
current event (waking every waiter parked on it) and replace `_event`
with a fresh, unset `asyncio.Event` (the rearm). -/
def publish (s : BusState α) (x : α) : BusState α :=
  { snapshot := some x
    gen := s.gen + 1
    isSet := fun g => if g = s.gen then true else s.isSet g }

/-- `wait_update` (bus.py lines 27-32): a waiter entering while the bus is
in a state with current generation `enterGen` awaits that event.  If by
the time the waiter is scheduled (state `sAtWake`) that event has been
set, it returns the snapshot stored at that moment; if the event is never
set within the timeout, `asyncio.wait_for` raises `TimeoutError` and the
method returns `None` (absent). -/
def waitUpdate (enterGen : Nat) (sAtWake : BusState α) : Option α :=
  if sAtWake.isSet enterGen then sAtWake.snapshot else none

/-- A reachable bus state: events of the current and future generations
have not been set. -/
def WF (s : BusState α) : Prop := ∀ g, s.gen ≤ g → s.isSet g = false

/-- The state built by `SnapshotBus.__init__` (bus.py lines 13-16). -/
def init (α : Type) : BusState α := ⟨none, 0, fun _ => false⟩

theorem publish_WF (s : BusState α) (x : α) (h : WF s) : WF (publish s x) := by
  intro g hg
  simp only [publish] at hg ⊢
  rw [if_neg (by omega)]
  exact h g (by omega)

end SnapshotBus

/-- C9: the snapshot bus stores a single latest value.  In any reachable
state, a fresh `wait_update` with no subsequent publish times out and
returns absent.  After `publish x1; publish x2` with no intervening
wake-up of waiters, the stored value is `x2`, a waiter that entered
before the publishes wakes up and observes `x2`, and no waiter whatsoever
can observe `x1` (when `x1 ≠ x2`). -/
theorem snapshotBus_coalesces {α : Type} (s0 : SnapshotBus.BusState α)
    (x1 x2 : α) (hWF : SnapshotBus.WF s0) (hne : x1 ≠ x2) :
    (SnapshotBus.waitUpdate s0.gen s0 = none) ∧
    ((SnapshotBus.publish (SnapshotBus.publish s0 x1) x2).snapshot = some x2) ∧
    (SnapshotBus.waitUpdate s0.gen
        (SnapshotBus.publish (SnapshotBus.publish s0 x1) x2) = some x2) ∧
    (∀ g, SnapshotBus.waitUpdate g
        (SnapshotBus.publish (SnapshotBus.publish s0 x1) x2) ≠ some x1) := by
  refine ⟨?_, rfl, ?_, ?_⟩
  · unfold SnapshotBus.waitUpdate
    rw [hWF s0.gen (le_refl _)]
    simp
  · unfold SnapshotBus.waitUpdate
    simp [SnapshotBus.publish]
  · intro g
    unfold SnapshotBus.waitUpdate
    split
    · simp [SnapshotBus.publish]
      intro h
      exact hne h.symm
    · simp

theorem snapshotBus_coalesces_witness :
    SnapshotBus.waitUpdate 0
        (SnapshotBus.publish
          (SnapshotBus.publish (SnapshotBus.init Nat) 7) 8) = some 8 :=
  (snapshotBus_coalesces (SnapshotBus.init Nat) 7 8
    (fun _ _ => rfl) (by decide)).2.2.1

inductive EKind where
  | mqtt_publish
  | binary
  | ws_text
deriving DecidableEq

/-- The domain event of src/sniffer/models.py.  The wall-clock `ts`
string is not modelled. -/
structure Event where
  kind : EKind
  url : PyStr := []
  topic : Option PyStr := none
  payload_preview : Option PyStr := none
  length : Option Nat := none

namespace Registry

/-- One `(regex, handler)` registration of src/sniffer/flows/registry.py.
The compiled regex is modelled by its matching function (`rx.match`
against a topic, field `patMatch`) and the async handler by whether it completes without
raising (`ok = false` models a handler that raises). -/
structure Route where
  rid : Nat
  patMatch : PyStr → Bool
  ok : Bool

/-- The dispatch loop of `topic_router` (registry.py lines 33-39) on a
topic, returning the routes whose handlers get invoked, in invocation
order: each route is tried in registration order; on a match the handler
runs; if it returns normally the router returns (`return await fn(ev, m)`),
ending dispatch; if it raises, the error is swallowed with a structured
log line and the loop continues with the remaining routes. -/
def routeInvocations (rs : List Route) (t : PyStr) : List Route :=
  match rs with
  | [] => []
  | r :: rest =>
    if r.patMatch t then
      if r.ok then [r] else r :: routeInvocations rest t
    else routeInvocations rest t

/-- The raising handlers among the invoked ones; `topic_router` prints
one structured error log line for each of these. -/
def routeErrors (rs : List Route) (t : PyStr) : List Route :=
  (routeInvocations rs t).filter (fun r => !r.ok)

/-- `topic_router` (registry.py lines 30-39): events are dispatched only
when `ev.kind == "mqtt_publish"` and `ev.topic` is truthy (present and
nonempty). -/
def topicRouter (rs : List Route) (ev : Event) : List Route :=
  match ev.kind, ev.topic with
  | EKind.mqtt_publish, some t => if t = [] then [] else routeInvocations rs t
  | _, _ => []

theorem routeInvocations_characterize (rs : List Route) (t : PyStr) :
    routeInvocations rs t =
      (rs.filter (fun r => r.patMatch t)).takeWhile (fun r => !r.ok) ++
      ((rs.filter (fun r => r.patMatch t)).dropWhile (fun r => !r.ok)).take 1 := by
  induction rs with
  | nil => simp [routeInvocations]
  | cons r rest ih =>
    by_cases hm : r.patMatch t
    · by_cases hok : r.ok
      · simp [routeInvocations, hm, hok, List.filter_cons, List.takeWhile_cons,
          List.dropWhile_cons]
      · simp [routeInvocations, hm, hok, List.filter_cons, List.takeWhile_cons,
          List.dropWhile_cons, ih]
    · simp [routeInvocations, hm, List.filter_cons, ih]

end Registry

namespace Registry

theorem routeInvocations_matched (rs : List Route) (t : PyStr) (r : Route)
    (h : r ∈ routeInvocations rs t) : r.patMatch t = true := by
  induction rs with
  | nil => simp [routeInvocations] at h
  | cons r0 rest ih =>
    by_cases hm : r0.patMatch t
    · by_cases hok : r0.ok
      · simp [routeInvocations, hm, hok] at h
        rwa [h]
      · simp [routeInvocations, hm, hok] at h
        rcases h with h | h
        · rwa [h]
        · exact ih h
    · simp [routeInvocations, hm] at h
      exact ih h

end Registry

/-- C2 (amended): events are dispatched only when the kind is
`mqtt_publish` and the topic is present and nonempty.  Matching handlers
are invoked sequentially in registration order, not concurrently:
dispatch runs through the raising matching handlers (each error is
swallowed with a structured log line) and stops at the first matching
handler that completes normally; matching handlers registered after it
are not invoked.  Every invoked handler's pattern matches the topic. -/
theorem topicRouter_sequential_first_success (rs : List Registry.Route)
    (url : PyStr) (pp : Option PyStr) (ln : Option Nat) :
    (∀ t, t ≠ [] →
      Registry.topicRouter rs
          { kind := EKind.mqtt_publish, url := url, topic := some t,
            payload_preview := pp, length := ln } =
        (rs.filter (fun r => r.patMatch t)).takeWhile (fun r => !r.ok) ++
        ((rs.filter (fun r => r.patMatch t)).dropWhile (fun r => !r.ok)).take 1) ∧
    (∀ t r,
      r ∈ Registry.topicRouter rs
          { kind := EKind.mqtt_publish, url := url, topic := some t,
            payload_preview := pp, length := ln } →
      r.patMatch t = true) ∧
    (Registry.topicRouter rs
        { kind := EKind.mqtt_publish, url := url, topic := none,
          payload_preview := pp, length := ln } = []) ∧
    (∀ tp, Registry.topicRouter rs
        { kind := EKind.binary, url := url, topic := tp,
          payload_preview := pp, length := ln } = []) ∧
    (∀ tp, Registry.topicRouter rs
        { kind := EKind.ws_text, url := url, topic := tp,
          payload_preview := pp, length := ln } = []) := by
  refine ⟨?_, ?_, rfl, fun tp => rfl, fun tp => rfl⟩
  · intro t ht
    simp only [Registry.topicRouter, if_neg ht]
    exact Registry.routeInvocations_characterize rs t
  · intro t r h
    by_cases ht : t = []
    · simp only [Registry.topicRouter, if_pos ht] at h
      simp at h
    · simp only [Registry.topicRouter, if_neg ht] at h
      exact Registry.routeInvocations_matched rs t r h

/-- A registered handler that matches everything and returns normally. -/
def routeA : Registry.Route := ⟨0, fun _ => true, true⟩

/-- A second such handler, registered after `routeA`. -/
def routeB : Registry.Route := ⟨1, fun _ => true, true⟩

/-- A handler matching everything whose invocation raises. -/
def routeE : Registry.Route := ⟨2, fun _ => true, false⟩

/-- C2 counterexample: with two registered handlers that both match the
topic `"p"` and complete normally, the router invokes only the first one;
the second matching handler is never invoked, refuting "every registered
pair whose pattern matches the topic is invoked". -/
theorem topicRouter_counterexample :
    Registry.topicRouter [routeA, routeB]
      { kind := EKind.mqtt_publish, topic := some [112] } = [routeA] ∧
    routeB.patMatch [112] = true ∧
    routeB ∉ Registry.topicRouter [routeA, routeB]
      { kind := EKind.mqtt_publish, topic := some [112] } := by
  refine ⟨rfl, rfl, ?_⟩
  intro hmem
  simp [Registry.topicRouter, Registry.routeInvocations, routeA, routeB] at hmem

theorem topicRouter_sequential_first_success_witness :
    Registry.topicRouter [routeE, routeA]
      { kind := EKind.mqtt_publish, url := [], topic := some [112],
        payload_preview := none, length := none } =
      ([routeE, routeA].filter (fun r => r.patMatch [112])).takeWhile
          (fun r => !r.ok) ++
        (([routeE, routeA].filter (fun r => r.patMatch [112])).dropWhile
          (fun r => !r.ok)).take 1 :=
  (topicRouter_sequential_first_success [routeE, routeA] [] none none).1
    [112] (by decide)

namespace MqttCodec

/-- The loop of `MqttCodec._mqtt_varint` (src/sniffer/mqtt_codec.py lines
25-37).  `cnt` counts continuation bytes and the loop fails once
`cnt >= 4`; here the remaining budget `fuel = 4 - cnt` drives the
recursion.  Byte arithmetic: `b & 0x7F` is `b % 128` and the continuation
test `(b & 0x80) == 0` is `b / 128 % 2 == 0`. -/
def varintAux : Nat → List Nat → Nat → Nat → Nat → Option Nat × Nat
  | 0, _, i, _, _ => (none, i)
  | fuel + 1, buf, i, mult, val =>
    if buf.length ≤ i then (none, i)
    else
      let b := buf.getD i 0
      let val' := val + b % 128 * mult
      if b / 128 % 2 = 0 then (some val', i + 1)
      else varintAux fuel buf (i + 1) (mult * 128) val'

/-- `MqttCodec._mqtt_varint(buf, i)`: parse the MQTT Remaining Length
starting at index `i`; returns `(value?, next_index)`. -/
def mqttVarint (buf : List Nat) (i : Nat) : Option Nat × Nat :=
  varintAux 4 buf i 1 0

/-- The canonical MQTT Remaining-Length encoding: little-endian base-128
groups, continuation bit `0x80` on every byte except the last. -/
def encRemLength (n : Nat) : List Nat :=
  if n < 128 then [n] else (n % 128 + 128) :: encRemLength (n / 128)
termination_by n
decreasing_by exact Nat.div_lt_self (by omega) (by omega)

theorem encRemLength_small (n : Nat) (h : n < 128) : encRemLength n = [n] := by
  rw [encRemLength, if_pos h]

theorem encRemLength_large (n : Nat) (h : 128 ≤ n) :
    encRemLength n = (n % 128 + 128) :: encRemLength (n / 128) := by
  rw [encRemLength, if_neg (by omega)]

theorem encRemLength_length_le :
    ∀ k n, 0 < k → n < 128 ^ k → (encRemLength n).length ≤ k := by
  intro k
  induction k with
  | zero => omega
  | succ k ih =>
    intro n _ hn
    by_cases h : n < 128
    · rw [encRemLength_small n h]
      simp
    · rw [encRemLength_large n (by omega)]
      rcases Nat.eq_zero_or_pos k with hk | hk
      · exfalso
        rw [hk] at hn
        simp [pow_succ, pow_zero] at hn
        omega
      · have hdiv : n / 128 < 128 ^ k := by
          apply Nat.div_lt_of_lt_mul
          rw [pow_succ] at hn
          omega
        simpa using ih (n / 128) hk hdiv

theorem varintAux_enc :
    ∀ n fuel pre suf mult val, (encRemLength n).length ≤ fuel →
      varintAux fuel (pre ++ encRemLength n ++ suf) pre.length mult val =
        (some (val + n * mult), pre.length + (encRemLength n).length) := by
  intro n
  induction n using Nat.strong_induction_on with
  | _ n ih =>
    intro fuel pre suf mult val hfuel
    by_cases h : n < 128
    · rw [encRemLength_small n h] at hfuel ⊢
      rcases fuel with _ | fuel
      · simp at hfuel
      · rw [varintAux]
        have hlen : ¬ ((pre ++ [n] ++ suf).length ≤ pre.length) := by
          simp
        rw [if_neg hlen]
        have hb : (pre ++ [n] ++ suf).getD pre.length 0 = n := by
          rw [List.append_assoc, List.getD_append_right _ _ _ _ (le_refl _)]
          simp
        simp only [hb]
        rw [if_pos (by omega)]
        have hm : n % 128 = n := Nat.mod_eq_of_lt h
        simp [hm]
    · rw [encRemLength_large n (by omega)] at hfuel ⊢
      rcases fuel with _ | fuel
      · simp at hfuel
      · rw [varintAux]
        have hlen : ¬ ((pre ++ ((n % 128 + 128) :: encRemLength (n / 128)) ++
            suf).length ≤ pre.length) := by
          simp
        rw [if_neg hlen]
        have hb : (pre ++ ((n % 128 + 128) :: encRemLength (n / 128)) ++
            suf).getD pre.length 0 = n % 128 + 128 := by
          rw [List.append_assoc, List.getD_append_right _ _ _ _ (le_refl _)]
          simp
        simp only [hb]
        have hmod : (n % 128 + 128) % 128 = n % 128 := by omega
        have hcont : ¬ ((n % 128 + 128) / 128 % 2 = 0) := by omega
        rw [if_neg hcont]
        have hsplit : pre ++ ((n % 128 + 128) :: encRemLength (n / 128)) ++ suf =
            (pre ++ [n % 128 + 128]) ++ encRemLength (n / 128) ++ suf := by
          simp
        have hpos : pre.length + 1 = (pre ++ [n % 128 + 128]).length := by simp
        rw [hsplit, hmod, hpos]
        have hdiv : n / 128 < n := Nat.div_lt_self (by omega) (by omega)
        have hfuel2 : (encRemLength (n / 128)).length ≤ fuel := by
          simp at hfuel
          omega
        rw [ih (n / 128) hdiv fuel (pre ++ [n % 128 + 128]) suf (mult * 128)
          (val + n % 128 * mult) hfuel2]
        have harith : val + n % 128 * mult + n / 128 * (mult * 128) =
            val + n * mult := by
          have hx : n % 128 + 128 * (n / 128) = n := Nat.mod_add_div n 128
          calc val + n % 128 * mult + n / 128 * (mult * 128)
              = val + (n % 128 + 128 * (n / 128)) * mult := by ring
            _ = val + n * mult := by rw [hx]
        rw [harith]
        simp
        omega

theorem varintAux_all_cont :
    ∀ fuel buf i mult val,
      (∀ j, j < fuel → i + j < buf.length → buf.getD (i + j) 0 / 128 % 2 = 1) →
      (varintAux fuel buf i mult val).1 = none := by
  intro fuel
  induction fuel with
  | zero => intro buf i mult val _; rfl
  | succ fuel ih =>
    intro buf i mult val h
    rw [varintAux]
    by_cases hlen : buf.length ≤ i
    · rw [if_pos hlen]
    · rw [if_neg hlen]
      have hb : buf.getD i 0 / 128 % 2 = 1 := by
        have := h 0 (by omega) (by omega)
        simpa using this
      rw [if_neg (by omega)]
      apply ih
      intro j hj hjl
      have h2 := h (j + 1) (by omega) (by omega)
      have e : i + (j + 1) = i + 1 + j := by omega
      rwa [e] at h2

end MqttCodec

/-- C6: for every `n ≤ 268435455`, decoding the canonical MQTT
Remaining-Length varint encoding of `n` placed at position `pre.length`
of a buffer yields `n` and advances the index by exactly the length of
the encoding; when the bytes at the decode position all carry the
continuation bit (an encoding longer than 4 bytes, or a truncated
buffer), the decoder returns the failure value `none` instead. -/
theorem mqttVarint_roundtrip :
    (∀ n (pre suf : List Nat), n ≤ 268435455 →
      MqttCodec.mqttVarint (pre ++ MqttCodec.encRemLength n ++ suf)
          pre.length =
        (some n, pre.length + (MqttCodec.encRemLength n).length)) ∧
    (∀ buf i,
      (∀ j, j < 4 → i + j < buf.length → buf.getD (i + j) 0 / 128 % 2 = 1) →
      (MqttCodec.mqttVarint buf i).1 = none) := by
  constructor
  · intro n pre suf hn
    have hlen : (MqttCodec.encRemLength n).length ≤ 4 :=
      MqttCodec.encRemLength_length_le 4 n (by omega) (by norm_num; omega)
    have := MqttCodec.varintAux_enc n 4 pre suf 1 0 hlen
    simpa [MqttCodec.mqttVarint] using this
  · intro buf i h
    exact MqttCodec.varintAux_all_cont 4 buf i 1 0 h

theorem mqttVarint_roundtrip_witness :
    MqttCodec.mqttVarint ([7] ++ MqttCodec.encRemLength 300 ++ [9]) 1 =
      (some 300, 1 + (MqttCodec.encRemLength 300).length) :=
  mqttVarint_roundtrip.1 300 [7] [9] (by decide)

namespace Utf8

/-- A Unicode scalar value: what one Python `str` code point may be. -/
def ValidScalar (c : Nat) : Prop := c < 0x110000 ∧ ¬ (0xD800 ≤ c ∧ c ≤ 0xDFFF)

/-- UTF-8 encoding of one scalar value (used when a Python `str` crosses
the byte boundary, e.g. `bytes` framing of an MQTT topic). -/
def encodeChar (c : Nat) : List Nat :=
  if c < 0x80 then [c]
  else if c < 0x800 then [0xC0 + c / 64, 0x80 + c % 64]
  else if c < 0x10000 then
    [0xE0 + c / 4096, 0x80 + c / 64 % 64, 0x80 + c % 64]
  else
    [0xF0 + c / 0x40000, 0x80 + c / 4096 % 64, 0x80 + c / 64 % 64,
     0x80 + c % 64]

/-- UTF-8 encoding of a Python string. -/
def encode : PyStr → List Nat
  | [] => []
  | c :: s => encodeChar c ++ encode s

/-- Valid second byte of a three-byte sequence with leading byte `b`
(UTF-8 excludes overlong forms and surrogates). -/
def cont3 (b b2 : Nat) : Prop :=
  if b = 0xE0 then 0xA0 ≤ b2 ∧ b2 ≤ 0xBF
  else if b = 0xED then 0x80 ≤ b2 ∧ b2 ≤ 0x9F
  else 0x80 ≤ b2 ∧ b2 ≤ 0xBF

/-- Valid second byte of a four-byte sequence with leading byte `b`. -/
def cont4 (b b2 : Nat) : Prop :=
  if b = 0xF0 then 0x90 ≤ b2 ∧ b2 ≤ 0xBF
  else if b = 0xF4 then 0x80 ≤ b2 ∧ b2 ≤ 0x8F
  else 0x80 ≤ b2 ∧ b2 ≤ 0xBF

instance (b b2 : Nat) : Decidable (cont3 b b2) := by unfold cont3; infer_instance

instance (b b2 : Nat) : Decidable (cont4 b b2) := by unfold cont4; infer_instance

/-- Parse one UTF-8 sequence from leading byte `b` and remaining bytes
`r`: `(some scalar, rest)` on success, `(none, rest)` consuming one byte
on an ill-formed prefix.  (CPython's codec may consume more than one byte
of a maximal ill-formed subsequence; that difference is observable only
on invalid input, which the theorems below never produce.) -/
def parse1 (b : Nat) (r : List Nat) : Option Nat × List Nat :=
  if b < 0x80 then (some b, r)
  else if b < 0xC2 then (none, r)
  else if b ≤ 0xDF then
    match r with
    | b2 :: r2 =>
      if 0x80 ≤ b2 ∧ b2 ≤ 0xBF then
        (some ((b - 0xC0) * 64 + (b2 - 0x80)), r2)
      else (none, r)
    | [] => (none, [])
  else if b ≤ 0xEF then
    match r with
    | b2 :: b3 :: r3 =>
      if cont3 b b2 ∧ 0x80 ≤ b3 ∧ b3 ≤ 0xBF then
        (some ((b - 0xE0) * 4096 + (b2 - 0x80) * 64 + (b3 - 0x80)), r3)
      else (none, r)
    | _ => (none, r)
  else if b ≤ 0xF4 then
    match r with
    | b2 :: b3 :: b4 :: r4 =>
      if cont4 b b2 ∧ 0x80 ≤ b3 ∧ b3 ≤ 0xBF ∧ 0x80 ≤ b4 ∧ b4 ≤ 0xBF then
        (some ((b - 0xF0) * 0x40000 + (b2 - 0x80) * 4096 +
          (b3 - 0x80) * 64 + (b4 - 0x80)), r4)
      else (none, r)
    | _ => (none, r)
  else (none, r)

theorem parse1_snd_le (b : Nat) (r : List Nat) :
    (parse1 b r).2.length ≤ r.length := by
  rcases r with _ | ⟨b2, r⟩
  · simp only [parse1]
    split_ifs <;> simp
  · rcases r with _ | ⟨b3, r⟩
    · simp only [parse1]
      split_ifs <;> simp
    · rcases r with _ | ⟨b4, r⟩
      · simp only [parse1]
        split_ifs <;> simp
      · simp only [parse1]
        split_ifs <;> simp
        omega

/-- Decoding of a byte buffer to a Python string; `rep = true` models
`errors="replace"` (emit U+FFFD on ill-formed input), `rep = false`
models `errors="ignore"`. -/
def decodeWith (rep : Bool) : List Nat → PyStr
  | [] => []
  | b :: r =>
    let p := parse1 b r
    match p.1 with
    | some c => c :: decodeWith rep p.2
    | none => (if rep then [0xFFFD] else []) ++ decodeWith rep p.2
termination_by l => l.length
decreasing_by
  all_goals
    have h := parse1_snd_le b r
    simp only [List.length_cons]
    omega

theorem decodeWith_nil (rep : Bool) : decodeWith rep [] = [] := by
  unfold decodeWith
  rfl

theorem decodeWith_cons (rep : Bool) (b : Nat) (r : List Nat) :
    decodeWith rep (b :: r) =
      match (parse1 b r).1 with
      | some c => c :: decodeWith rep (parse1 b r).2
      | none => (if rep then [0xFFFD] else []) ++ decodeWith rep (parse1 b r).2 := by
  conv_lhs => rw [decodeWith]

theorem parse1_encodeChar (c : Nat) (h : ValidScalar c) (rest : List Nat) :
    parse1 ((encodeChar c).headD 0) ((encodeChar c).tail ++ rest) =
      (some c, rest) := by
  obtain ⟨hmax, hsurr⟩ := h
  by_cases h1 : c < 0x80
  · simp only [encodeChar, if_pos h1, List.headD, List.tail, List.nil_append,
      parse1]
  · by_cases h2 : c < 0x800
    · simp only [encodeChar, if_neg h1, if_pos h2, List.headD, List.tail,
        List.cons_append, List.nil_append, parse1]
      rw [if_neg (by omega), if_neg (by omega), if_pos (by omega),
        if_pos (by omega)]
      have : (0xC0 + c / 64 - 0xC0) * 64 + (0x80 + c % 64 - 0x80) = c := by
        omega
      rw [this]
    · by_cases h3 : c < 0x10000
      · simp only [encodeChar, if_neg h1, if_neg h2, if_pos h3, List.headD,
          List.tail, List.cons_append, List.nil_append, parse1]
        rw [if_neg (by omega), if_neg (by omega), if_neg (by omega),
          if_pos (by omega)]
        have hc3 : cont3 (0xE0 + c / 4096) (0x80 + c / 64 % 64) := by
          unfold cont3
          split_ifs with he0 hed
          · constructor <;> omega
          · constructor <;> omega
          · constructor <;> omega
        rw [if_pos ⟨hc3, by omega, by omega⟩]
        have : (0xE0 + c / 4096 - 0xE0) * 4096 +
            (0x80 + c / 64 % 64 - 0x80) * 64 + (0x80 + c % 64 - 0x80) = c := by
          omega
        rw [this]
      · simp only [encodeChar, if_neg h1, if_neg h2, if_neg h3, List.headD,
          List.tail, List.cons_append, List.nil_append, parse1]
        rw [if_neg (by omega), if_neg (by omega), if_neg (by omega),
          if_neg (by omega), if_pos (by omega)]
        have hc4 : cont4 (0xF0 + c / 0x40000) (0x80 + c / 4096 % 64) := by
          unfold cont4
          split_ifs with hf0 hf4
          · constructor <;> omega
          · constructor <;> omega
          · constructor <;> omega
        rw [if_pos ⟨hc4, by omega, by omega, by omega, by omega⟩]
        have : (0xF0 + c / 0x40000 - 0xF0) * 0x40000 +
            (0x80 + c / 4096 % 64 - 0x80) * 4096 +
            (0x80 + c / 64 % 64 - 0x80) * 64 + (0x80 + c % 64 - 0x80) = c := by
          omega
        rw [this]

theorem encodeChar_ne_nil (c : Nat) : encodeChar c ≠ [] := by
  unfold encodeChar
  split_ifs <;> simp

theorem decodeWith_encode_append (rep : Bool) (s : PyStr)
    (hs : ∀ c ∈ s, ValidScalar c) (extra : List Nat) :
    decodeWith rep (encode s ++ extra) = s ++ decodeWith rep extra := by
  induction s with
  | nil => simp [encode]
  | cons c s ih =>
    have hc : ValidScalar c := hs c (by simp)
    have hrest : ∀ x ∈ s, ValidScalar x := fun x hx => hs x (by simp [hx])
    have hsplit : encode (c :: s) ++ extra =
        (encodeChar c).headD 0 :: ((encodeChar c).tail ++ (encode s ++ extra)) := by
      rcases hec : encodeChar c with _ | ⟨b, tl⟩
      · exact absurd hec (encodeChar_ne_nil c)
      · simp [encode, hec]
    rw [hsplit, decodeWith_cons, parse1_encodeChar c hc]
    simp only
    rw [ih hrest]
    rfl

end Utf8

namespace MqttCodec

/-- The result of `MqttCodec.decode_mqtt_publish`. -/
structure PubMsg where
  topic : PyStr
  payload_preview : PyStr
deriving DecidableEq

/-- `MqttCodec._u16` (mqtt_codec.py lines 40-55): 2-byte big-endian
unsigned integer; `(buf[i] << 8) | buf[i+1]` is `buf[i] * 256 + buf[i+1]`
on bytes. -/
def u16 (buf : List Nat) (i : Nat) : Option Nat × Nat :=
  if buf.length < i + 2 then (none, i)
  else (some (buf.getD i 0 * 256 + buf.getD (i + 1) 0), i + 2)

/-- `MqttCodec._read_str` (mqtt_codec.py lines 58-80): 2-byte big-endian
length, then that many bytes decoded as UTF-8 with `errors="replace"`
(which never raises, so the except branch is dead). -/
def readStr (buf : List Nat) (i : Nat) : Option PyStr × Nat :=
  match u16 buf i with
  | (none, i2) => (none, i2)
  | (some ln, i2) =>
    if buf.length < i2 + ln then (none, i2)
    else (some (Utf8.decodeWith true ((buf.drop i2).take ln)), i2 + ln)

/-- `MqttCodec.is_mqtt_ping` (mqtt_codec.py lines 82-92):
`len(raw) >= 2 and raw[1] == 0x00 and raw[0] in (0xC0, 0xD0)`. -/
def isMqttPing (raw : List Nat) : Bool :=
  match raw with
  | b0 :: b1 :: _ => b1 == 0 && (b0 == 0xC0 || b0 == 0xD0)
  | _ => false

/-- Payload extraction at the end of `decode_mqtt_publish` (mqtt_codec.py
lines 136-144): `payload_end = min(1 + (idx - 1) + rem, len(raw))`,
`payload = raw[idx:payload_end]`, preview is the first 64 payload bytes
decoded as UTF-8 with `errors="ignore"` and then `.strip()`ed. -/
def pubOut (raw : List Nat) (topic : PyStr) (idx rem : Nat) : PubMsg :=
  let pend := min (1 + (idx - 1) + rem) raw.length
  let payload := (raw.take pend).drop idx
  { topic := topic
    payload_preview := pyStrip (Utf8.decodeWith false (payload.take 64)) }

/-- `MqttCodec.decode_mqtt_publish` (mqtt_codec.py lines 94-144).
`(raw[0] >> 4) & 0x0F` is `raw[0] / 16 % 16`, the flags nibble is
`raw[0] % 16` and the QoS bits are `flags / 2 % 4`. -/
def decodeMqttPublish (raw : List Nat) : Option PubMsg :=
  match raw with
  | [] => none
  | b0 :: _ =>
    if b0 / 16 % 16 ≠ 3 then none
    else
      let qos := b0 % 16 / 2 % 4
      let vr := mqttVarint raw 1
      match vr.1 with
      | none => none
      | some rem =>
        if raw.length < vr.2 + rem then none
        else
          let ts := readStr raw vr.2
          match ts.1 with
          | none => none
          | some topic =>
            if 0 < qos then
              let pr := u16 raw ts.2
              match pr.1 with
              | none => none
              | some _ => some (pubOut raw topic pr.2 rem)
            else some (pubOut raw topic ts.2 rem)

/-- A well-formed MQTT PUBLISH frame for `(topic, payload, qos)` (with
packet identifier `pid` when `qos > 0`): fixed header byte
`0x30 ||| (qos <<< 1)`, varint Remaining Length, 2-byte big-endian
length-prefixed UTF-8 topic, the packet identifier when `qos > 0`, then
the payload bytes. -/
def mkPublishFrame (topic : PyStr) (payload : List Nat) (qos pid : Nat) :
    List Nat :=
  let tb := Utf8.encode topic
  let rem := 2 + tb.length + (if 0 < qos then 2 else 0) + payload.length
  (0x30 + 2 * qos) :: (encRemLength rem ++
    ((tb.length / 256) :: (tb.length % 256) :: (tb ++
      ((if 0 < qos then [pid / 256, pid % 256] else []) ++ payload))))

theorem u16_at (A B : List Nat) (x y i : Nat) (hi : A.length = i) :
    u16 (A ++ x :: y :: B) i = (some (x * 256 + y), i + 2) := by
  unfold u16
  rw [if_neg (by simp only [List.length_append, List.length_cons, ← hi]; omega)]
  have h0 : (A ++ x :: y :: B).getD i 0 = x := by
    rw [List.getD_append_right _ _ _ _ (by omega)]
    simp [← hi]
  have h1 : (A ++ x :: y :: B).getD (i + 1) 0 = y := by
    rw [List.getD_append_right _ _ _ _ (by omega)]
    have : i + 1 - A.length = 1 := by omega
    rw [this]
    rfl
  rw [h0, h1]


theorem readStr_at (A B : List Nat) (s : PyStr) (i : Nat)
    (hv : ∀ c ∈ s, Utf8.ValidScalar c) (hi : A.length = i) :
    readStr (A ++ ((Utf8.encode s).length / 256) ::
        ((Utf8.encode s).length % 256) :: (Utf8.encode s ++ B)) i =
      (some s, i + 2 + (Utf8.encode s).length) := by
  unfold readStr
  rw [u16_at A (Utf8.encode s ++ B) _ _ i hi]
  dsimp only
  have hlen : (Utf8.encode s).length / 256 * 256 +
      (Utf8.encode s).length % 256 = (Utf8.encode s).length := by
    omega
  rw [hlen]
  have hsplit : A ++ ((Utf8.encode s).length / 256) ::
      ((Utf8.encode s).length % 256) :: (Utf8.encode s ++ B) =
      (A ++ [(Utf8.encode s).length / 256, (Utf8.encode s).length % 256]) ++
        (Utf8.encode s ++ B) := by
    simp
  rw [if_neg (by rw [hsplit]; simp [← hi]; omega)]
  have hdrop : ((A ++ ((Utf8.encode s).length / 256) ::
      ((Utf8.encode s).length % 256) :: (Utf8.encode s ++ B)).drop (i + 2)) =
      Utf8.encode s ++ B := by
    rw [hsplit]
    exact List.drop_left' (by simp [hi])
  rw [hdrop, List.take_left' rfl]
  have hdec : Utf8.decodeWith true (Utf8.encode s) = s := by
    have h := Utf8.decodeWith_encode_append true s hv []
    simpa [Utf8.decodeWith_nil] using h
  rw [hdec]

end MqttCodec

namespace MqttCodec

theorem pubOut_at (C payload : List Nat) (topic : PyStr) (idx rem : Nat)
    (hC : C.length = idx) (h1 : 1 ≤ idx)
    (hrem : C.length + payload.length ≤ idx + rem) :
    pubOut (C ++ payload) topic idx rem =
      { topic := topic
        payload_preview :=
          pyStrip (Utf8.decodeWith false (payload.take 64)) } := by
  have hpend : min (1 + (idx - 1) + rem) (C ++ payload).length =
      (C ++ payload).length := by
    simp only [List.length_append, hC]
    omega
  unfold pubOut
  dsimp only
  rw [hpend, List.take_length, List.drop_left' hC]

theorem mqttVarint_at (b0 : Nat) (n : Nat) (S : List Nat)
    (hn : n ≤ 268435455) :
    mqttVarint (b0 :: (encRemLength n ++ S)) 1 =
      (some n, 1 + (encRemLength n).length) := by
  have hfuel : (encRemLength n).length ≤ 4 :=
    encRemLength_length_le 4 n (by omega) (by norm_num; omega)
  have h := varintAux_enc n 4 [b0] S 1 0 hfuel
  simp only [List.length_cons, List.length_nil] at h
  have he : [b0] ++ encRemLength n ++ S = b0 :: (encRemLength n ++ S) := by
    simp
  rw [he] at h
  simpa [mqttVarint] using h

/-- Framing a PUBLISH for `(topic, payload, qos, pid)` and re-parsing it
recovers the topic and the stripped lenient decode of the first 64
payload bytes. -/
theorem decode_mkPublishFrame (topic : PyStr) (payload : List Nat)
    (qos pid : Nat) (hv : ∀ c ∈ topic, Utf8.ValidScalar c) (hq : qos ≤ 2)
    (hrem : 2 + (Utf8.encode topic).length + (if 0 < qos then 2 else 0) +
      payload.length ≤ 268435455) :
    decodeMqttPublish (mkPublishFrame topic payload qos pid) =
      some { topic := topic
             payload_preview :=
               pyStrip (Utf8.decodeWith false (payload.take 64)) } := by
  unfold decodeMqttPublish mkPublishFrame
  dsimp only
  rw [if_neg (by omega)]
  have hqos : (0x30 + 2 * qos) % 16 / 2 % 4 = qos := by omega
  rw [hqos]
  set tb := Utf8.encode topic with htb
  set pb : List Nat := if 0 < qos then [pid / 256, pid % 256] else [] with hpb
  set k : Nat := if 0 < qos then 2 else 0 with hk
  have hpblen : pb.length = k := by
    rw [hpb, hk]
    split_ifs <;> simp
  set rem := 2 + tb.length + k + payload.length with hremdef
  rw [mqttVarint_at _ rem _ hrem]
  dsimp only
  set E := encRemLength rem with hE
  have hlentot : ((0x30 + 2 * qos) ::
      (E ++ tb.length / 256 :: tb.length % 256 ::
        (tb ++ (pb ++ payload)))).length =
      1 + E.length + 2 + tb.length + k + payload.length := by
    simp [hpblen]
    omega
  rw [if_neg (by rw [hlentot, hremdef]; omega)]
  have hsplitA : (0x30 + 2 * qos) ::
      (E ++ tb.length / 256 :: tb.length % 256 :: (tb ++ (pb ++ payload))) =
      ((0x30 + 2 * qos) :: E) ++ tb.length / 256 :: tb.length % 256 ::
        (tb ++ (pb ++ payload)) := by
    simp
  have hA : ((0x30 + 2 * qos) :: E).length = 1 + E.length := by
    simp
    omega
  rw [hsplitA, readStr_at _ _ topic (1 + E.length) hv hA]
  dsimp only
  by_cases hq0 : 0 < qos
  · rw [if_pos hq0]
    have hkval : k = 2 := by rw [hk, if_pos hq0]
    have hpbval : pb = [pid / 256, pid % 256] := by rw [hpb, if_pos hq0]
    have hsplitB : ((0x30 + 2 * qos) :: E) ++ tb.length / 256 ::
        tb.length % 256 :: (tb ++ (pb ++ payload)) =
        (((0x30 + 2 * qos) :: E) ++ tb.length / 256 :: tb.length % 256 ::
          tb) ++ (pid / 256) :: (pid % 256) :: payload := by
      rw [hpbval]
      simp
    have hB : (((0x30 + 2 * qos) :: E) ++ tb.length / 256 ::
        tb.length % 256 :: tb).length = 1 + E.length + 2 + tb.length := by
      simp
      omega
    rw [hsplitB, u16_at _ _ _ _ _ hB]
    dsimp only
    have hsplitC : (((0x30 + 2 * qos) :: E) ++ tb.length / 256 ::
        tb.length % 256 :: tb) ++ (pid / 256) :: (pid % 256) :: payload =
        ((((0x30 + 2 * qos) :: E) ++ tb.length / 256 :: tb.length % 256 ::
          tb) ++ [pid / 256, pid % 256]) ++ payload := by
      simp
    have hCl : ((((0x30 + 2 * qos) :: E) ++ tb.length / 256 ::
        tb.length % 256 :: tb) ++ [pid / 256, pid % 256]).length =
        1 + E.length + 2 + tb.length + 2 := by
      simp
      omega
    rw [hsplitC, pubOut_at _ payload topic _ rem hCl (by omega) (by
      rw [hCl, hremdef, hkval]
      omega)]
  · rw [if_neg hq0]
    have hkval : k = 0 := by rw [hk, if_neg hq0]
    have hpbval : pb = [] := by rw [hpb, if_neg hq0]
    have hsplitB : ((0x30 + 2 * qos) :: E) ++ tb.length / 256 ::
        tb.length % 256 :: (tb ++ (pb ++ payload)) =
        (((0x30 + 2 * qos) :: E) ++ tb.length / 256 :: tb.length % 256 ::
          tb) ++ payload := by
      rw [hpbval]
      simp
    have hB : (((0x30 + 2 * qos) :: E) ++ tb.length / 256 ::
        tb.length % 256 :: tb).length = 1 + E.length + 2 + tb.length := by
      simp
      omega
    rw [hsplitB, pubOut_at _ payload topic _ rem hB (by omega) (by
      rw [hB, hremdef, hkval]
      omega)]

end MqttCodec

namespace EventFactory

/-- The binary branch of `EventFactory.from_ws`
(src/sniffer/event_factory.py lines 37-50), after the base64 decode of
the browser message succeeded: drop MQTT heartbeats and too-short
buffers, then try PUBLISH decoding; other binaries surface as `binary`
events with their length. -/
def fromWsBinary (minBinLen : Nat) (url : PyStr) (raw : List Nat) :
    Option Event :=
  if MqttCodec.isMqttPing raw || decide (raw.length < minBinLen) then none
  else
    match MqttCodec.decodeMqttPublish raw with
    | some pub =>
      some { kind := EKind.mqtt_publish, url := url,
             topic := some pub.topic,
             payload_preview := some pub.payload_preview }
    | none => some { kind := EKind.binary, url := url,
                     length := some raw.length }

end EventFactory

/-- C7 (amended): for every `(topic, payload, qos)` with a valid-scalar
topic, `qos ≤ 2` and a Remaining Length within the 4-byte varint bound,
framing a well-formed MQTT PUBLISH and passing it to
`decode_mqtt_publish` yields the framed topic and, as
`payload_preview`, the first 64 payload bytes decoded as lenient UTF-8
with leading and trailing whitespace stripped. -/
theorem mqttPublish_frame_roundtrip (topic : PyStr) (payload : List Nat)
    (qos pid : Nat) (hv : ∀ c ∈ topic, Utf8.ValidScalar c) (hq : qos ≤ 2)
    (hrem : 2 + (Utf8.encode topic).length + (if 0 < qos then 2 else 0) +
      payload.length ≤ 268435455) :
    MqttCodec.decodeMqttPublish
        (MqttCodec.mkPublishFrame topic payload qos pid) =
      some { topic := topic
             payload_preview :=
               pyStrip (Utf8.decodeWith false (payload.take 64)) } :=
  MqttCodec.decode_mkPublishFrame topic payload qos pid hv hq hrem

/-- C7 counterexample: framing topic `"a"` with payload `" x"` (leading
space) and re-parsing yields preview `"x"`: the stored preview is the
stripped decode, not the plain lenient decode `" x"` of the first 64
payload bytes that the claim states. -/
theorem mqttPublish_preview_counterexample :
    MqttCodec.decodeMqttPublish
        (MqttCodec.mkPublishFrame [97] [32, 120] 0 0) =
      some { topic := [97], payload_preview := [120] } ∧
    Utf8.decodeWith false (([32, 120] : List Nat).take 64) = [32, 120] ∧
    ([120] : PyStr) ≠ [32, 120] := by
  have d1 : Utf8.decodeWith false [120] = [120] := by
    rw [Utf8.decodeWith_cons]
    norm_num [Utf8.parse1, Utf8.decodeWith_nil]
  have d2 : Utf8.decodeWith false [32, 120] = [32, 120] := by
    rw [Utf8.decodeWith_cons]
    norm_num [Utf8.parse1, d1]
  refine ⟨?_, by rw [show (([32, 120] : List Nat).take 64) = [32, 120]
    from rfl, d2], by decide⟩
  rw [MqttCodec.decode_mkPublishFrame [97] [32, 120] 0 0
    (by intro c hc; simp at hc; subst hc; exact ⟨by omega, by omega⟩)
    (by omega) (by decide)]
  have hs : pyStrip (Utf8.decodeWith false (([32, 120] : List Nat).take 64)) =
      [120] := by
    rw [show (([32, 120] : List Nat).take 64) = [32, 120] from rfl, d2]
    decide
  rw [hs]

theorem mqttPublish_frame_roundtrip_witness :
    MqttCodec.decodeMqttPublish
        (MqttCodec.mkPublishFrame [97] [104, 105] 1 7) =
      some { topic := [97]
             payload_preview :=
               pyStrip (Utf8.decodeWith false
                 (([104, 105] : List Nat).take 64)) } :=
  mqttPublish_frame_roundtrip [97] [104, 105] 1 7
    (by intro c hc; simp at hc; subst hc; exact ⟨by omega, by omega⟩)
    (by omega) (by decide)

/-- C3 counterexample: the 10-byte binary buffer `C0 00 01 01 01 01 01 01
01 01` is longer than 2 bytes, yet `is_mqtt_ping` classifies it as a
heartbeat (the check is `len(raw) >= 2`, not `== 2`) and the decoder
emits no event for it, refuting "buffers longer than 2 bytes are not
treated as heartbeats". -/
theorem heartbeat_longer_counterexample :
    MqttCodec.isMqttPing [0xC0, 0, 1, 1, 1, 1, 1, 1, 1, 1] = true ∧
    EventFactory.fromWsBinary 10 [] [0xC0, 0, 1, 1, 1, 1, 1, 1, 1, 1] =
      none ∧
    ([0xC0, 0, 1, 1, 1, 1, 1, 1, 1, 1] : List Nat).length ≠ 2 := by
  exact ⟨rfl, rfl, by decide⟩

/-- C3 (amended): the heartbeat filter rejects exactly the buffers of
length at least 2 whose first byte is `0xC0` or `0xD0` and whose second
byte is `0x00` (in particular also buffers longer than 2 bytes).  Every
2-byte heartbeat `[b0, 0]` produces no event; for every buffer the
filter does not classify as a heartbeat and that meets the minimum
binary length, decoding proceeds (a PUBLISH event or a `binary` event is
emitted). -/
theorem heartbeat_filter_characterize (minBinLen : Nat) (url : PyStr) :
    (∀ b0, b0 = 0xC0 ∨ b0 = 0xD0 →
      EventFactory.fromWsBinary minBinLen url [b0, 0] = none) ∧
    (∀ raw, MqttCodec.isMqttPing raw = true ↔
      ∃ b0 rest, raw = b0 :: 0 :: rest ∧ (b0 = 0xC0 ∨ b0 = 0xD0)) ∧
    (∀ raw, MqttCodec.isMqttPing raw = false → minBinLen ≤ raw.length →
      EventFactory.fromWsBinary minBinLen url raw =
        match MqttCodec.decodeMqttPublish raw with
        | some pub =>
          some { kind := EKind.mqtt_publish, url := url,
                 topic := some pub.topic,
                 payload_preview := some pub.payload_preview }
        | none => some { kind := EKind.binary, url := url,
                         length := some raw.length }) := by
  refine ⟨?_, ?_, ?_⟩
  · rintro b0 (rfl | rfl) <;> rfl
  · intro raw
    rcases raw with _ | ⟨b0, raw⟩
    · simp [MqttCodec.isMqttPing]
    · rcases raw with _ | ⟨b1, raw⟩
      · simp [MqttCodec.isMqttPing]
      · simp only [MqttCodec.isMqttPing, Bool.and_eq_true, Bool.or_eq_true,
          beq_iff_eq]
        constructor
        · rintro ⟨h1, h2⟩
          exact ⟨b0, raw, by rw [h1], h2⟩
        · rintro ⟨b0', rest', heq, h⟩
          injection heq with e1 e2
          injection e2 with e2 e3
          subst e1
          subst e2
          exact ⟨rfl, h⟩
  · intro raw hping hlen
    unfold EventFactory.fromWsBinary
    rw [hping]
    have hd : decide (raw.length < minBinLen) = false := by
      simp
      omega
    rw [hd]
    rfl

theorem heartbeat_filter_characterize_witness :
    EventFactory.fromWsBinary 10 [] [0xD0, 0] = none :=
  (heartbeat_filter_characterize 10 []).1 0xD0 (Or.inr rfl)

namespace Normalizers

/-- A Python `float` value: a finite value (idealised as a rational) or
one of the non-finite values `nan`, `inf`, `-inf`. -/
inductive PyFloat where
  | finite (q : ℚ)
  | nan
  | inf
  | ninf
deriving DecidableEq

/-- A Python value at the converters' public interface: `None`, `bool`,
`int`, `float` or `str`. -/
inductive PyVal where
  | none
  | bool (b : Bool)
  | int (i : ℤ)
  | float (f : PyFloat)
  | str (s : String)
deriving DecidableEq

/-- The exceptions the modelled builtins can raise. -/
inductive PyErr where
  | typeError
  | valueError
  | overflowError
deriving DecidableEq

/-- Whitespace test for `str.strip()` on characters. -/
def isPySpaceChar (c : Char) : Bool := isPySpace c.toNat

/-- `str.strip()` on a Lean-`String`-modelled Python string. -/
def stripS (s : String) : String :=
  ⟨((s.data.dropWhile isPySpaceChar).reverse.dropWhile
      isPySpaceChar).reverse⟩

/-- Numeric value of a digit run. -/
def digitsVal (ds : List Char) : Nat :=
  ds.foldl (fun a c => a * 10 + (c.toNat - 48)) 0

/-- The decimal part of `float(str)`: `digits`, `digits.digits`,
`.digits` or `digits.` (the exponent form and underscore separators are
outside the scope of the theorems below). -/
def parseDecimal (cs : List Char) : Option ℚ :=
  let ip := cs.takeWhile Char.isDigit
  let rest := cs.dropWhile Char.isDigit
  match rest with
  | [] => if ip.isEmpty then none else some (digitsVal ip)
  | '.' :: r =>
    if r.all Char.isDigit ∧ ¬ (ip.isEmpty ∧ r.isEmpty) then
      some (digitsVal ip + digitsVal r / (10 ^ r.length : ℚ))
    else none
  | _ => none

/-- `float(str)`: strip whitespace, optional sign, then the special
tokens `inf` / `infinity` / `nan` (case-insensitive) or a decimal
number. -/
def parseFloat (s : String) : Option PyFloat :=
  let cs := (stripS s).data
  let core := match cs with
    | '+' :: r => (false, r)
    | '-' :: r => (true, r)
    | r => (false, r)
  let neg := core.1
  let w := core.2.map Char.toLower
  if w = "inf".data ∨ w = "infinity".data then
    some (if neg then PyFloat.ninf else PyFloat.inf)
  else if w = "nan".data then some PyFloat.nan
  else
    match parseDecimal core.2 with
    | some q => some (PyFloat.finite (if neg then -q else q))
    | Option.none => none

/-- The builtin `float(x)` on the converter input domain. -/
def pyFloatOf : PyVal → Except PyErr PyFloat
  | .none => .error .typeError
  | .bool b => .ok (.finite (if b then 1 else 0))
  | .int i => .ok (.finite i)
  | .float f => .ok f
  | .str s =>
    match parseFloat s with
    | some f => .ok f
    | Option.none => .error .valueError

/-- Truncation toward zero, the behaviour of `int()` on a finite float. -/
def ratTrunc (q : ℚ) : ℤ := if 0 ≤ q then ⌊q⌋ else ⌈q⌉

/-- The builtin `int()` applied to a float: raises `ValueError` on `nan`
and `OverflowError` on the infinities. -/
def pyIntOfFloat : PyFloat → Except PyErr ℤ
  | .finite q => .ok (ratTrunc q)
  | .nan => .error .valueError
  | .inf => .error .overflowError
  | .ninf => .error .overflowError

/-- `int(str)`: strip whitespace, optional sign, digits only. -/
def parseIntStr (s : String) : Option ℤ :=
  let cs := (stripS s).data
  let core := match cs with
    | '+' :: r => (false, r)
    | '-' :: r => (true, r)
    | r => (false, r)
  if core.2 ≠ [] ∧ core.2.all Char.isDigit then
    some (if core.1 then -(digitsVal core.2 : ℤ) else digitsVal core.2)
  else none

/-- The builtin `int(x)` on the converter input domain. -/
def pyIntOf : PyVal → Except PyErr ℤ
  | .none => .error .typeError
  | .bool b => .ok (if b then 1 else 0)
  | .int i => .ok i
  | .float f => pyIntOfFloat f
  | .str s =>
    match parseIntStr s with
    | some i => .ok i
    | Option.none => .error .valueError

/-- The test `x is None or str(x).strip() == ""` shared by the
converters (`str(x)` of a non-string value is never blank). -/
def isNoneOrBlank : PyVal → Bool
  | .none => true
  | .str s => s.data.all isPySpaceChar
  | _ => false

/-- `to_int_or_none` (src/commons/normalizers.py lines 20-31): the whole
body sits in a `try` with a catch-all `except`, so it is total. -/
def to_int_or_none (x : PyVal) : Option ℤ :=
  if isNoneOrBlank x then Option.none
  else
    match pyIntOf x with
    | .ok i => some i
    | .error _ => Option.none

/-- `to_float_or_none` (normalizers.py lines 65-70): same shape. -/
def to_float_or_none (x : PyVal) : Option PyFloat :=
  if isNoneOrBlank x then Option.none
  else
    match pyFloatOf x with
    | .ok f => some f
    | .error _ => Option.none

/-- `ts_to_seconds` (normalizers.py lines 34-49).  Only the call
`val = float(x)` is inside the `try`; the millisecond test, the division
and the final `int(val)` run unprotected, so an exception raised by
`int(val)` propagates to the caller.  `nan >= 1e12` is false and
`inf >= 1e12` is true; dividing a non-finite float by 1000 leaves it
unchanged. -/
def ts_to_seconds (x : PyVal) : Except PyErr (Option ℤ) :=
  if isNoneOrBlank x then .ok Option.none
  else
    match pyFloatOf x with
    | .error _ => .ok Option.none
    | .ok v =>
      let ge12 : Bool :=
        match v with
        | .finite q => decide ((1000000000000 : ℚ) ≤ q)
        | .nan => false
        | .inf => true
        | .ninf => false
      let v2 := if ge12 then
          (match v with
            | .finite q => PyFloat.finite (q / 1000)
            | f => f)
        else v
      match pyIntOfFloat v2 with
      | .ok i => .ok (some i)
      | .error e => .error e

end Normalizers

/-- C10: refuted by `ts_to_seconds`.  On the non-finite numeric strings
`"nan"` and `"inf"` the timestamp converter raises (`int(val)` sits
outside the `try` block): `ValueError` for `nan`, `OverflowError` for
`inf`; it does not return an `int`-or-`None`.  (On blank input it does
return `None`, third conjunct.) -/
theorem tsToSeconds_raises_on_nonfinite :
    Normalizers.ts_to_seconds (Normalizers.PyVal.str "nan") =
      Except.error Normalizers.PyErr.valueError ∧
    Normalizers.ts_to_seconds (Normalizers.PyVal.str "inf") =
      Except.error Normalizers.PyErr.overflowError ∧
    Normalizers.ts_to_seconds (Normalizers.PyVal.str "  ") =
      Except.ok Option.none := by
  refine ⟨?_, ?_, ?_⟩ <;> rfl

namespace PigeonService

/-- One deal-history row as seen by the ranking step of
`PigeonService._apply_custom_sort_rules_with_fuzzy`
(src/sniffer/pigeon_pids_query/pigeon_bis_query.py lines 326-356), after
the annotation pass has attached the similarity and aggregation fields
that `sort_key` reads (`_match_exact`, `_match_hit`, `_match_score`,
`_agg_count`, `_agg_total`).  The remaining row fields play no part in
the ranking.  Scores and totals are Python floats, idealised as
rationals. -/
structure HistRow where
  matchExact : Bool
  matchHit : Bool
  matchScore : ℚ
  aggCount : ℤ
  aggTotal : ℚ

/-- `sort_key` (pigeon_bis_query.py lines 347-354): the negated tuple
`(-int(exact), -int(hit), -score, -agg_count, -agg_total)` compared
lexicographically, so each component is descending and exact match has
the highest priority. -/
def sortKey (r : HistRow) : ℤ ×ₗ (ℤ ×ₗ (ℚ ×ₗ (ℤ ×ₗ ℚ))) :=
  toLex (-(if r.matchExact then (1 : ℤ) else 0),
    toLex (-(if r.matchHit then (1 : ℤ) else 0),
      toLex (-r.matchScore,
        toLex (-r.aggCount, -r.aggTotal))))

/-- The ranking order: ascending in the negated key tuple. -/
def keyLE (a b : HistRow) : Prop := sortKey a ≤ sortKey b

instance : DecidableRel keyLE := fun a b =>
  inferInstanceAs (Decidable (sortKey a ≤ sortKey b))

instance : IsTotal HistRow keyLE := ⟨fun a b => le_total (sortKey a) (sortKey b)⟩

instance : IsTrans HistRow keyLE :=
  ⟨fun _ _ _ h1 h2 => le_trans h1 h2⟩

/-- `rows.sort(key=sort_key)` (line 356): Python's `list.sort` is
specified as a stable sort by ascending key, which `insertionSort` with
the key order realises. -/
def sortRows (rows : List HistRow) : List HistRow :=
  List.insertionSort keyLE rows

theorem filter_orderedInsert_key (a : HistRow) (L : List HistRow)
    (k : ℤ ×ₗ (ℤ ×ₗ (ℚ ×ₗ (ℤ ×ₗ ℚ)))) :
    (List.orderedInsert keyLE a L).filter (fun r => decide (sortKey r = k)) =
      ((a :: L).filter (fun r => decide (sortKey r = k))) := by
  rw [List.orderedInsert_eq_take_drop]
  rw [List.filter_append]
  by_cases hpa : sortKey a = k
  · have hT : (L.takeWhile fun b => ¬ keyLE a b).filter
        (fun r => decide (sortKey r = k)) = [] := by
      rw [List.filter_eq_nil_iff]
      intro t ht hkt
      have hnotle : ¬ keyLE a t := by
        have := List.mem_takeWhile_imp ht
        simpa using this
      have hkeq : sortKey t = sortKey a := by
        simp at hkt
        rw [hkt, hpa]
      exact hnotle (le_of_eq hkeq.symm)
    rw [hT]
    have hL : (L.filter (fun r => decide (sortKey r = k))) =
        ((L.takeWhile fun b => ¬ keyLE a b).filter
          (fun r => decide (sortKey r = k))) ++
        ((L.dropWhile fun b => ¬ keyLE a b).filter
          (fun r => decide (sortKey r = k))) := by
      rw [← List.filter_append, List.takeWhile_append_dropWhile]
    simp only [List.filter_cons, hL, hT]
    simp
  · simp only [List.filter_cons]
    have hpa2 : decide (sortKey a = k) = false := by simpa using hpa
    rw [hpa2]
    simp only [Bool.false_eq_true, if_false]
    rw [← List.filter_append, List.takeWhile_append_dropWhile]

theorem sortRows_filter_key (rows : List HistRow)
    (k : ℤ ×ₗ (ℤ ×ₗ (ℚ ×ₗ (ℤ ×ₗ ℚ)))) :
    (sortRows rows).filter (fun r => decide (sortKey r = k)) =
      rows.filter (fun r => decide (sortKey r = k)) := by
  induction rows with
  | nil => rfl
  | cons a rows ih =>
    have : sortRows (a :: rows) =
        List.orderedInsert keyLE a (sortRows rows) := rfl
    rw [this, filter_orderedInsert_key, List.filter_cons,
      List.filter_cons, ih]

end PigeonService

/-- C5: the ranking step is a stable sort of the history rows by the
composite key `(-exact, -hit, -score, -agg_count, -agg_total)` compared
lexicographically: the output is a permutation of the input, it is
sorted with respect to the key order `keyLE` (each component descending,
exact match of highest priority), and rows with equal composite keys
keep their input order (the key-`k` subsequence is preserved verbatim
for every `k`). -/
theorem ranking_sort_stable (rows : List PigeonService.HistRow) :
    (PigeonService.sortRows rows).Perm rows ∧
    List.Sorted PigeonService.keyLE (PigeonService.sortRows rows) ∧
    (∀ k, (PigeonService.sortRows rows).filter
        (fun r => decide (PigeonService.sortKey r = k)) =
      rows.filter (fun r => decide (PigeonService.sortKey r = k))) :=
  ⟨List.perm_insertionSort PigeonService.keyLE rows,
   List.sorted_insertionSort PigeonService.keyLE rows,
   fun k => PigeonService.sortRows_filter_key rows k⟩

namespace PigeonDao

/-- One `pigeon_info` row as selected by
`PigeonDao.query_bid_statistics_and_deals` (src/dao/pigeon_dao.py lines
392-421): the seven selected columns.  `quote` is a nullable
`DECIMAL(10,2)`, idealised as an optional rational. -/
structure DealRow where
  bid_user_code : String
  matcher_name : String
  name : String
  foot_ring : String
  quote : Option ℚ
  auction_id : ℤ
  status_name : String
deriving DecidableEq

/-- `q = float(row["quote"]) if row["quote"] is not None else 0.0`
(pigeon_dao.py line 428). -/
def qD (r : DealRow) : ℚ := r.quote.getD 0

/-- The dict appended to `completed_deals[uc]` (pigeon_dao.py lines
431-440). -/
structure DealOut where
  matcher_name : String
  name : String
  foot_ring : String
  quote : ℚ
  auction_id : ℤ
  status_name : String
deriving DecidableEq

def toOut (r : DealRow) : DealOut :=
  { matcher_name := r.matcher_name, name := r.name,
    foot_ring := r.foot_ring, quote := qD r,
    auction_id := r.auction_id, status_name := r.status_name }

/-- The per-user statistics record (pigeon_dao.py lines 443-458). -/
structure UserStats where
  deal_count : Nat
  total_price : ℚ
  highest_price : ℚ
  second_highest_price : ℚ
  deal_count_all : Nat
  total_price_all : ℚ
  highest_price_all : ℚ
  second_highest_price_all : ℚ
deriving DecidableEq

/-- The `setdefault` initial statistics (all zero). -/
def initStats : UserStats := ⟨0, 0, 0, 0, 0, 0, 0, 0⟩

/-- The pairwise top-two update (pigeon_dao.py lines 463-467 and
473-477): `if q > highest: second, highest := highest, q
elif q > second: second := q`. -/
def top2step (h s q : ℚ) : ℚ × ℚ :=
  if h < q then (q, h) else if s < q then (h, q) else (h, s)

/-- The per-row statistics update (pigeon_dao.py lines 460-477): the
all-auctions aggregates are updated first, then, when the row belongs to
`auction_id`, the current-auction aggregates. -/
def updateStats (aid : ℤ) (st : UserStats) (r : DealRow) : UserStats :=
  let q := qD r
  let ap := top2step st.highest_price_all st.second_highest_price_all q
  let st1 : UserStats :=
    { st with deal_count_all := st.deal_count_all + 1
              total_price_all := st.total_price_all + q
              highest_price_all := ap.1
              second_highest_price_all := ap.2 }
  if r.auction_id = aid then
    let cp := top2step st1.highest_price st1.second_highest_price q
    { st1 with deal_count := st1.deal_count + 1
               total_price := st1.total_price + q
               highest_price := cp.1
               second_highest_price := cp.2 }
  else st1

/-- The two result dicts of the query, as total maps with the dicts'
lookup defaults (`statistics.get(uc)` / `deals.get(uc, [])`). -/
structure DaoState where
  statistics : String → Option UserStats
  deals : String → List DealOut

def initState : DaoState := ⟨fun _ => none, fun _ => []⟩

/-- One iteration of the result loop (pigeon_dao.py lines 426-477):
append the projected row to `completed_deals[uc]` and fold it into the
`setdefault`-initialised statistics of `uc`. -/
def processRow (aid : ℤ) (st : DaoState) (r : DealRow) : DaoState :=
  let uc := r.bid_user_code
  let ns := updateStats aid ((st.statistics uc).getD initStats) r
  { statistics := fun u => if u = uc then some ns else st.statistics u
    deals := fun u => if u = uc then st.deals u ++ [toOut r]
             else st.deals u }

/-- The row filter of the SQL `WHERE` clause: `bid_user_code = uc` and,
when the whitelist is nonempty (`filter_status = bool(status_whitelist)`,
lines 376 and 390-421), `status_name` in the whitelist. -/
def rowMatch (wl : List String) (uc : String) (r : DealRow) : Bool :=
  r.bid_user_code == uc && (wl.isEmpty || wl.contains r.status_name)

/-- `ORDER BY ... quote DESC` within one bidder. -/
def rowGE (a b : DealRow) : Prop := qD b ≤ qD a

instance : DecidableRel rowGE := fun a b =>
  inferInstanceAs (Decidable (qD b ≤ qD a))

instance : IsTotal DealRow rowGE := ⟨fun a b => le_total (qD b) (qD a)⟩

instance : IsTrans DealRow rowGE := ⟨fun _ _ _ h1 h2 => le_trans h2 h1⟩

def sortRowsDesc (rs : List DealRow) : List DealRow :=
  List.insertionSort rowGE rs

/-- The result set of one chunk's SQL statement
(`WHERE bid_user_code IN (chunk) [AND status_name IN (wl)]
ORDER BY bid_user_code, quote DESC`): the `IN` list is a set (duplicates
are immaterial), rows are grouped by bidder in ascending code order and
sorted by quote descending within a bidder. -/
def sqlQuery (table : List DealRow) (wl : List String)
    (chunk : List String) : List DealRow :=
  ((List.insertionSort (fun a b : String => a ≤ b) chunk.dedup).map
    (fun uc => sortRowsDesc (table.filter (rowMatch wl uc)))).flatten

/-- `user_codes[i:i+chunk_size]` for `i in range(0, len, chunk_size)`. -/
def chunksAux : Nat → Nat → List α → List (List α)
  | 0, _, _ => []
  | _, _, [] => []
  | fuel + 1, size, l => l.take size :: chunksAux fuel size (l.drop size)

def chunksOf (size : Nat) (l : List α) : List (List α) :=
  chunksAux l.length size l

/-- `[uc.strip() for uc in user_codes if uc and uc.strip()]`
(pigeon_dao.py line 372). -/
def cleanCodes (user_codes : List String) : List String :=
  user_codes.filterMap (fun uc =>
    if uc ≠ "" ∧ Normalizers.stripS uc ≠ "" then some (Normalizers.stripS uc)
    else none)

/-- `PigeonDao.query_bid_statistics_and_deals` (pigeon_dao.py lines
330-479) over an abstract `pigeon_info` table: empty-input guards, code
cleaning, chunk-size normalisation, then the chunked query loop folding
every returned row into the two dicts. -/
def query_bid_statistics_and_deals (table : List DealRow)
    (user_codes : List String) (auction_id : ℤ)
    (status_whitelist : List String) (chunk_size : ℤ) :
    (String → Option UserStats) × (String → List DealOut) :=
  if user_codes = [] then (fun _ => none, fun _ => [])
  else
    let cs : Nat := if chunk_size ≤ 0 then 100 else chunk_size.toNat
    let codes := cleanCodes user_codes
    if codes = [] then (fun _ => none, fun _ => [])
    else
      let final := (chunksOf cs codes).foldl
        (fun st chunk =>
          (sqlQuery table status_whitelist chunk).foldl
            (processRow auction_id) st)
        initState
      (final.statistics, final.deals)

/-- The quotes of a row list. -/
def quotesOf (rs : List DealRow) : List ℚ := rs.map qD

/-- Quotes in descending order (the reference for "largest /
second-largest quote value"). -/
def sortedQuotesDesc (qs : List ℚ) : List ℚ :=
  List.insertionSort (fun a b : ℚ => b ≤ a) qs

end PigeonDao

namespace PigeonDao

theorem processRow_other (aid : ℤ) (st : DaoState) (r : DealRow)
    (uc : String) (h : r.bid_user_code ≠ uc) :
    (processRow aid st r).statistics uc = st.statistics uc ∧
    (processRow aid st r).deals uc = st.deals uc := by
  unfold processRow
  dsimp only
  rw [if_neg (fun he => h he.symm), if_neg (fun he => h he.symm)]
  exact ⟨rfl, rfl⟩

theorem foldl_noUc (aid : ℤ) (uc : String) :
    ∀ (l : List DealRow) (st : DaoState),
      (∀ r ∈ l, r.bid_user_code ≠ uc) →
      (l.foldl (processRow aid) st).statistics uc = st.statistics uc ∧
      (l.foldl (processRow aid) st).deals uc = st.deals uc := by
  intro l
  induction l with
  | nil => intro st _; exact ⟨rfl, rfl⟩
  | cons r l ih =>
    intro st h
    have h1 := processRow_other aid st r uc (h r (by simp))
    have h2 := ih (processRow aid st r) (fun x hx => h x (by simp [hx]))
    rw [List.foldl_cons]
    exact ⟨h2.1.trans h1.1, h2.2.trans h1.2⟩

theorem foldl_allUc (aid : ℤ) (uc : String) :
    ∀ (M : List DealRow) (st : DaoState),
      (∀ r ∈ M, r.bid_user_code = uc) →
      ((M.foldl (processRow aid) st).deals uc =
        st.deals uc ++ M.map toOut) ∧
      ((M.foldl (processRow aid) st).statistics uc =
        if M = [] then st.statistics uc
        else some (M.foldl (updateStats aid)
          ((st.statistics uc).getD initStats))) := by
  intro M
  induction M with
  | nil => intro st _; simp
  | cons r M ih =>
    intro st h
    have hr : r.bid_user_code = uc := h r (by simp)
    have hst1d : (processRow aid st r).deals uc =
        st.deals uc ++ [toOut r] := by
      unfold processRow
      dsimp only
      rw [hr, if_pos rfl]
    have hst1s : (processRow aid st r).statistics uc =
        some (updateStats aid ((st.statistics uc).getD initStats) r) := by
      unfold processRow
      dsimp only
      rw [hr, if_pos rfl]
    rw [List.foldl_cons]
    have ih2 := ih (processRow aid st r) (fun x hx => h x (by simp [hx]))
    constructor
    · rw [ih2.1, hst1d]
      simp
    · rw [ih2.2]
      rcases Decidable.em (M = []) with hM | hM
      · subst hM
        simp [hst1s]
      · rw [if_neg hM, if_neg (by simp)]
        rw [hst1s]
        simp [List.foldl_cons]

theorem mem_sortRowsDesc_user (table : List DealRow) (wl : List String)
    (u : String) (r : DealRow)
    (h : r ∈ sortRowsDesc (table.filter (rowMatch wl u))) :
    r.bid_user_code = u := by
  unfold sortRowsDesc at h
  rw [List.mem_insertionSort] at h
  have := List.of_mem_filter h
  unfold rowMatch at this
  simp at this
  exact this.1

theorem map_flatten_split (g : String → List DealRow) (uc : String) :
    ∀ (us : List String), uc ∈ us → us.Nodup →
      (∀ u r, r ∈ g u → r.bid_user_code = u) →
      ∃ A B, (us.map g).flatten = A ++ g uc ++ B ∧
        (∀ r ∈ A, r.bid_user_code ≠ uc) ∧
        (∀ r ∈ B, r.bid_user_code ≠ uc) := by
  intro us
  induction us with
  | nil => intro h; simp at h
  | cons u us ih =>
    intro hmem hnd hown
    rcases Decidable.em (uc = u) with heq | hne
    · subst heq
      refine ⟨[], (us.map g).flatten, by simp, by simp, ?_⟩
      intro r hr
      rw [List.mem_flatten] at hr
      obtain ⟨seg, hseg, hrseg⟩ := hr
      rw [List.mem_map] at hseg
      obtain ⟨u', hu', rfl⟩ := hseg
      have : r.bid_user_code = u' := hown u' r hrseg
      rw [this]
      intro he
      subst he
      exact (List.nodup_cons.mp hnd).1 hu'
    · have hmem2 : uc ∈ us := by
        rcases List.mem_cons.mp hmem with h | h
        · exact absurd h hne
        · exact h
      obtain ⟨A, B, hsplit, hA, hB⟩ :=
        ih hmem2 (List.nodup_cons.mp hnd).2 hown
      refine ⟨g u ++ A, B, ?_, ?_, hB⟩
      · simp [hsplit]
      · intro r hr
        rcases List.mem_append.mp hr with h | h
        · rw [hown u r h]
          exact fun he => hne he.symm
        · exact hA r h

theorem sqlQuery_split (table : List DealRow) (wl : List String)
    (chunk : List String) (uc : String) (h : uc ∈ chunk) :
    ∃ A B, sqlQuery table wl chunk =
      A ++ sortRowsDesc (table.filter (rowMatch wl uc)) ++ B ∧
      (∀ r ∈ A, r.bid_user_code ≠ uc) ∧
      (∀ r ∈ B, r.bid_user_code ≠ uc) := by
  have hmem : uc ∈ List.insertionSort (fun a b : String => a ≤ b)
      chunk.dedup := by
    rw [List.mem_insertionSort, List.mem_dedup]
    exact h
  have hnd : (List.insertionSort (fun a b : String => a ≤ b)
      chunk.dedup).Nodup :=
    (List.perm_insertionSort _ _).nodup_iff.mpr (List.nodup_dedup chunk)
  exact map_flatten_split
    (fun u => sortRowsDesc (table.filter (rowMatch wl u))) uc _ hmem hnd
    (fun u r hr => mem_sortRowsDesc_user table wl u r hr)

theorem sqlQuery_user_ne (table : List DealRow) (wl : List String)
    (chunk : List String) (uc : String) (h : uc ∉ chunk) :
    ∀ r ∈ sqlQuery table wl chunk, r.bid_user_code ≠ uc := by
  intro r hr
  unfold sqlQuery at hr
  rw [List.mem_flatten] at hr
  obtain ⟨seg, hseg, hrseg⟩ := hr
  rw [List.mem_map] at hseg
  obtain ⟨u', hu', rfl⟩ := hseg
  rw [mem_sortRowsDesc_user table wl u' r hrseg]
  intro he
  subst he
  rw [List.mem_insertionSort, List.mem_dedup] at hu'
  exact h hu'

end PigeonDao

namespace PigeonDao

theorem chunksAux_flatten :
    ∀ (fuel size : Nat) (l : List α), 0 < size → l.length ≤ fuel →
      (chunksAux fuel size l).flatten = l := by
  intro fuel
  induction fuel with
  | zero =>
    intro size l _ hl
    have : l = [] := List.length_eq_zero.mp (by omega)
    subst this
    rfl
  | succ fuel ih =>
    intro size l hs hl
    rcases l with _ | ⟨a, l⟩
    · rfl
    · rw [chunksAux]
      rw [List.flatten_cons]
      rw [ih size ((a :: l).drop size) hs (by
        simp only [List.length_drop, List.length_cons]
        simp only [List.length_cons] at hl
        omega)]
      exact List.take_append_drop size (a :: l)
      simp

theorem foldChunks_noUc (aid : ℤ) (table : List DealRow)
    (wl : List String) (uc : String) :
    ∀ (CS : List (List String)) (st : DaoState), uc ∉ CS.flatten →
      ((CS.foldl (fun s c => (sqlQuery table wl c).foldl
          (processRow aid) s) st).statistics uc = st.statistics uc ∧
       (CS.foldl (fun s c => (sqlQuery table wl c).foldl
          (processRow aid) s) st).deals uc = st.deals uc) := by
  intro CS
  induction CS with
  | nil => intro st _; exact ⟨rfl, rfl⟩
  | cons c CS ih =>
    intro st h
    have hc : uc ∉ c := fun hm => h (by simp [hm])
    have hCS : uc ∉ CS.flatten := fun hm => h (by simp [hm])
    rw [List.foldl_cons]
    have h1 := foldl_noUc aid uc (sqlQuery table wl c) st
      (sqlQuery_user_ne table wl c uc hc)
    have h2 := ih ((sqlQuery table wl c).foldl (processRow aid) st) hCS
    exact ⟨h2.1.trans h1.1, h2.2.trans h1.2⟩

theorem foldChunks_char (aid : ℤ) (table : List DealRow)
    (wl : List String) (uc : String) :
    ∀ (CS : List (List String)) (st : DaoState), CS.flatten.Nodup →
      uc ∈ CS.flatten →
      ((CS.foldl (fun s c => (sqlQuery table wl c).foldl
          (processRow aid) s) st).deals uc =
        st.deals uc ++
          (sortRowsDesc (table.filter (rowMatch wl uc))).map toOut) ∧
      ((CS.foldl (fun s c => (sqlQuery table wl c).foldl
          (processRow aid) s) st).statistics uc =
        if sortRowsDesc (table.filter (rowMatch wl uc)) = []
        then st.statistics uc
        else some ((sortRowsDesc (table.filter (rowMatch wl uc))).foldl
          (updateStats aid) ((st.statistics uc).getD initStats))) := by
  intro CS
  induction CS with
  | nil => intro st _ h; simp at h
  | cons c CS ih =>
    intro st hnd hmem
    have hndc : CS.flatten.Nodup ∧ c.Nodup ∧
        ∀ x ∈ c, x ∉ CS.flatten := by
      rw [List.flatten_cons] at hnd
      rw [List.nodup_append] at hnd
      exact ⟨hnd.2.1, hnd.1, fun x hx hx2 => hnd.2.2 hx hx2⟩
    rw [List.foldl_cons]
    rcases Decidable.em (uc ∈ c) with hin | hout
    · have hnotCS : uc ∉ CS.flatten := hndc.2.2 uc hin
      obtain ⟨A, B, hsplit, hA, hB⟩ := sqlQuery_split table wl c uc hin
      set M := sortRowsDesc (table.filter (rowMatch wl uc)) with hM
      have hMuc : ∀ r ∈ M, r.bid_user_code = uc := fun r hr =>
        mem_sortRowsDesc_user table wl uc r hr
      have hfold : (sqlQuery table wl c).foldl (processRow aid) st =
          B.foldl (processRow aid)
            (M.foldl (processRow aid) (A.foldl (processRow aid) st)) := by
        rw [hsplit, List.foldl_append, List.foldl_append]
      have hAst := foldl_noUc aid uc A st hA
      have hMst := foldl_allUc aid uc M (A.foldl (processRow aid) st) hMuc
      have hBst := foldl_noUc aid uc B
        (M.foldl (processRow aid) (A.foldl (processRow aid) st)) hB
      have hrest := foldChunks_noUc aid table wl uc CS
        ((sqlQuery table wl c).foldl (processRow aid) st) hnotCS
      constructor
      · rw [hrest.2, hfold, hBst.2, hMst.1, hAst.2]
      · rw [hrest.1, hfold, hBst.1, hMst.2, hAst.1]
    · have hmem2 : uc ∈ CS.flatten := by
        rw [List.flatten_cons, List.mem_append] at hmem
        rcases hmem with h | h
        · exact absurd h hout
        · exact h
      have h1 := foldl_noUc aid uc (sqlQuery table wl c) st
        (sqlQuery_user_ne table wl c uc hout)
      have h2 := ih ((sqlQuery table wl c).foldl (processRow aid) st)
        hndc.1 hmem2
      constructor
      · rw [h2.1, h1.2]
      · rw [h2.2, h1.1]

end PigeonDao

namespace PigeonDao

/-- Folding the pairwise top-two update over a list of quotes. -/
def top2fold (p : ℚ × ℚ) (qs : List ℚ) : ℚ × ℚ :=
  qs.foldl (fun p q => top2step p.1 p.2 q) p

theorem statsFold_eq (aid : ℤ) :
    ∀ (M : List DealRow) (s0 : UserStats),
      M.foldl (updateStats aid) s0 = UserStats.mk
        (s0.deal_count + (M.filter (fun r => r.auction_id = aid)).length)
        (s0.total_price +
          (quotesOf (M.filter (fun r => r.auction_id = aid))).sum)
        (top2fold (s0.highest_price, s0.second_highest_price)
          (quotesOf (M.filter (fun r => r.auction_id = aid)))).1
        (top2fold (s0.highest_price, s0.second_highest_price)
          (quotesOf (M.filter (fun r => r.auction_id = aid)))).2
        (s0.deal_count_all + M.length)
        (s0.total_price_all + (quotesOf M).sum)
        (top2fold (s0.highest_price_all, s0.second_highest_price_all)
          (quotesOf M)).1
        (top2fold (s0.highest_price_all, s0.second_highest_price_all)
          (quotesOf M)).2 := by
  intro M
  induction M with
  | nil =>
    intro s0
    simp [quotesOf, top2fold]
  | cons r M ih =>
    intro s0
    rw [List.foldl_cons, ih (updateStats aid s0 r)]
    by_cases hr : r.auction_id = aid
    · have hfc : (r :: M).filter (fun x => x.auction_id = aid) =
          r :: M.filter (fun x => x.auction_id = aid) := by
        simp [List.filter_cons, hr]
      rw [hfc]
      simp only [updateStats, if_pos hr, quotesOf, top2fold,
        List.map_cons, List.sum_cons, List.length_cons, List.foldl_cons]
      refine UserStats.mk.injEq _ _ _ _ _ _ _ _ _ _ _ _ _ _ _ _ |>.mpr
        ⟨by omega, by ring, rfl, rfl, by omega, by ring, rfl, rfl⟩
    · have hfc : (r :: M).filter (fun x => x.auction_id = aid) =
          M.filter (fun x => x.auction_id = aid) := by
        simp [List.filter_cons, hr]
      rw [hfc]
      simp only [updateStats, if_neg hr, quotesOf, top2fold,
        List.map_cons, List.sum_cons, List.length_cons, List.foldl_cons]
      refine UserStats.mk.injEq _ _ _ _ _ _ _ _ _ _ _ _ _ _ _ _ |>.mpr
        ⟨by omega, by ring, rfl, rfl, by omega, by ring, rfl, rfl⟩

theorem top2fold_const (a b : ℚ) :
    ∀ (t : List ℚ), (∀ x ∈ t, x ≤ b) → b ≤ a → top2fold (a, b) t = (a, b) := by
  intro t
  induction t with
  | nil => intro _ _; rfl
  | cons q t ih =>
    intro h hba
    have hq : q ≤ b := h q (by simp)
    have hstep : top2step a b q = (a, b) := by
      unfold top2step
      rw [if_neg (by push_neg; exact le_trans hq hba), if_neg (by push_neg; exact hq)]
    unfold top2fold
    rw [List.foldl_cons]
    dsimp only
    rw [hstep]
    exact ih (fun x hx => h x (by simp [hx])) hba

theorem top2fold_sorted (qs : List ℚ)
    (hs : List.Sorted (fun a b : ℚ => b ≤ a) qs)
    (hpos : ∀ x ∈ qs, 0 ≤ x) :
    top2fold (0, 0) qs = (qs.getD 0 0, qs.getD 1 0) := by
  rcases qs with _ | ⟨a, qs⟩
  · rfl
  · have ha : 0 ≤ a := hpos a (by simp)
    have hstep1 : top2step 0 0 a = (a, 0) := by
      unfold top2step
      rcases eq_or_lt_of_le ha with h | h
      · have hna : ¬ (0 : ℚ) < a := by
          rw [← h]
          exact lt_irrefl 0
        rw [if_neg hna, if_neg hna, ← h]
      · rw [if_pos h]
    rcases qs with _ | ⟨b, qs⟩
    · unfold top2fold
      rw [List.foldl_cons]
      dsimp only
      rw [hstep1]
      rfl
    · have hsorted := hs
      rw [List.sorted_cons] at hsorted
      have hba : b ≤ a := hsorted.1 b (by simp)
      have hs2 := hsorted.2
      rw [List.sorted_cons] at hs2
      have htb : ∀ x ∈ qs, x ≤ b := hs2.1
      have hb : 0 ≤ b := hpos b (by simp)
      have hstep2 : top2step a 0 b = (a, b) := by
        unfold top2step
        rcases eq_or_lt_of_le hb with h | h
        · rw [if_neg (by push_neg; exact hba), if_neg (by push_neg; exact le_of_eq h.symm)]
          rw [← h]
        · rw [if_neg (by push_neg; exact hba), if_pos h]
      unfold top2fold
      rw [List.foldl_cons, List.foldl_cons]
      dsimp only
      rw [hstep1, hstep2]
      exact top2fold_const a b qs htb hba

end PigeonDao

namespace PigeonDao

instance : IsTotal ℚ (fun a b : ℚ => b ≤ a) := ⟨fun a b => le_total b a⟩

instance : IsTrans ℚ (fun a b : ℚ => b ≤ a) :=
  ⟨fun _ _ _ h1 h2 => le_trans h2 h1⟩

instance : IsAntisymm ℚ (fun a b : ℚ => b ≤ a) :=
  ⟨fun a b h1 h2 => le_antisymm h2 h1⟩

theorem quotesOf_sorted (L : List DealRow) (h : List.Sorted rowGE L) :
    List.Sorted (fun a b : ℚ => b ≤ a) (quotesOf L) :=
  List.Pairwise.map qD (fun _ _ hab => hab) h

theorem quotes_eq_sortedDesc (L : List DealRow) (qs : List ℚ)
    (hsor : List.Sorted rowGE L) (hperm : (quotesOf L).Perm qs) :
    quotesOf L = sortedQuotesDesc qs := by
  refine List.eq_of_perm_of_sorted ?_ (quotesOf_sorted L hsor) ?_
  · exact hperm.trans (List.perm_insertionSort _ qs).symm
  · exact List.sorted_insertionSort _ qs

end PigeonDao

/-- C4: `query_bid_statistics_and_deals` returns `(statistics, deals)`
such that, for every queried user code (codes cleaned, pairwise distinct,
quotes non-negative): `deals[uc]` holds exactly the projections of that
bidder's table rows passing the status whitelist (across all auctions),
sorted by quote in descending order; and `statistics[uc]` (present iff
the bidder has matching rows) carries the eight aggregates, where
`deal_count` / `total_price` count and sum the rows of the given
`auction_id`, the `*_all` variants count and sum all matching rows, and
the `highest_price` / `second_highest_price` pairs — maintained by the
pairwise comparison without sorting — equal the first and second entries
of the descending-sorted quote lists (the largest and second-largest
quote values). -/
theorem query_bid_statistics_and_deals_correct
    (table : List PigeonDao.DealRow) (user_codes : List String) (aid : ℤ)
    (wl : List String) (chunk_size : ℤ) (uc : String)
    (hnd : (PigeonDao.cleanCodes user_codes).Nodup)
    (hpos : ∀ r ∈ table, 0 ≤ PigeonDao.qD r)
    (hmem : uc ∈ PigeonDao.cleanCodes user_codes) :
    ((PigeonDao.query_bid_statistics_and_deals table user_codes aid wl
        chunk_size).2 uc).Perm
      ((table.filter (PigeonDao.rowMatch wl uc)).map PigeonDao.toOut) ∧
    List.Sorted (fun a b : PigeonDao.DealOut => b.quote ≤ a.quote)
      ((PigeonDao.query_bid_statistics_and_deals table user_codes aid wl
        chunk_size).2 uc) ∧
    (PigeonDao.query_bid_statistics_and_deals table user_codes aid wl
        chunk_size).1 uc =
      (if table.filter (PigeonDao.rowMatch wl uc) = [] then none
       else some (PigeonDao.UserStats.mk
        ((table.filter (PigeonDao.rowMatch wl uc)).filter
          (fun r => r.auction_id = aid)).length
        (PigeonDao.quotesOf ((table.filter (PigeonDao.rowMatch wl uc)).filter
          (fun r => r.auction_id = aid))).sum
        ((PigeonDao.sortedQuotesDesc (PigeonDao.quotesOf
          ((table.filter (PigeonDao.rowMatch wl uc)).filter
            (fun r => r.auction_id = aid)))).getD 0 0)
        ((PigeonDao.sortedQuotesDesc (PigeonDao.quotesOf
          ((table.filter (PigeonDao.rowMatch wl uc)).filter
            (fun r => r.auction_id = aid)))).getD 1 0)
        (table.filter (PigeonDao.rowMatch wl uc)).length
        (PigeonDao.quotesOf (table.filter (PigeonDao.rowMatch wl uc))).sum
        ((PigeonDao.sortedQuotesDesc (PigeonDao.quotesOf
          (table.filter (PigeonDao.rowMatch wl uc)))).getD 0 0)
        ((PigeonDao.sortedQuotesDesc (PigeonDao.quotesOf
          (table.filter (PigeonDao.rowMatch wl uc)))).getD 1 0))) := by
  have hne1 : user_codes ≠ [] := by
    intro h
    rw [h] at hmem
    simp [PigeonDao.cleanCodes] at hmem
  have hne2 : PigeonDao.cleanCodes user_codes ≠ [] :=
    List.ne_nil_of_mem hmem
  unfold PigeonDao.query_bid_statistics_and_deals
  rw [if_neg hne1]
  dsimp only
  rw [if_neg hne2]
  dsimp only
  set cs : Nat := if chunk_size ≤ 0 then 100 else chunk_size.toNat with hcs
  have hcspos : 0 < cs := by
    rw [hcs]
    split_ifs with h
    · omega
    · omega
  have hflat : (PigeonDao.chunksOf cs
      (PigeonDao.cleanCodes user_codes)).flatten =
      PigeonDao.cleanCodes user_codes :=
    PigeonDao.chunksAux_flatten _ _ _ hcspos (le_refl _)
  have hchar := PigeonDao.foldChunks_char aid table wl uc
    (PigeonDao.chunksOf cs (PigeonDao.cleanCodes user_codes))
    PigeonDao.initState (by rw [hflat]; exact hnd)
    (by rw [hflat]; exact hmem)
  set F := table.filter (PigeonDao.rowMatch wl uc) with hF
  set M := PigeonDao.sortRowsDesc F with hM
  have hMF : M.Perm F := List.perm_insertionSort _ F
  have hMs : List.Sorted PigeonDao.rowGE M :=
    List.sorted_insertionSort _ F
  have hdeals : ((PigeonDao.chunksOf cs
      (PigeonDao.cleanCodes user_codes)).foldl
        (fun st chunk => (PigeonDao.sqlQuery table wl chunk).foldl
          (PigeonDao.processRow aid) st) PigeonDao.initState).deals uc =
      M.map PigeonDao.toOut := by
    rw [hchar.1]
    rfl
  have hstats := hchar.2
  refine ⟨?_, ?_, ?_⟩
  · rw [hdeals]
    exact hMF.map PigeonDao.toOut
  · rw [hdeals]
    exact List.Pairwise.map PigeonDao.toOut (fun _ _ hab => hab) hMs
  · rw [hstats]
    by_cases hFnil : F = []
    · rw [if_pos (by rw [hM, hFnil]; rfl), if_pos hFnil]
      rfl
    · have hMnil : M ≠ [] := by
        intro h
        rw [h] at hMF
        exact hFnil (hMF.symm.eq_nil)
      rw [if_neg hMnil, if_neg hFnil]
      have hfold := PigeonDao.statsFold_eq aid M PigeonDao.initStats
      have hinit : (PigeonDao.initState.statistics uc).getD
          PigeonDao.initStats = PigeonDao.initStats := rfl
      rw [hinit, hfold]
      dsimp only [PigeonDao.initStats]
      simp only [Nat.zero_add, zero_add]
      have hposM : ∀ x ∈ PigeonDao.quotesOf M, 0 ≤ x := by
        intro x hx
        rw [PigeonDao.quotesOf, List.mem_map] at hx
        obtain ⟨r, hr, rfl⟩ := hx
        exact hpos r (List.mem_of_mem_filter (hMF.mem_iff.mp hr))
      have hposMc : ∀ x ∈ PigeonDao.quotesOf
          (M.filter (fun r => r.auction_id = aid)), 0 ≤ x := by
        intro x hx
        rw [PigeonDao.quotesOf, List.mem_map] at hx
        obtain ⟨r, hr, rfl⟩ := hx
        exact hpos r (List.mem_of_mem_filter
          (hMF.mem_iff.mp (List.mem_of_mem_filter hr)))
      have hMcs : List.Sorted PigeonDao.rowGE
          (M.filter (fun r => r.auction_id = aid)) :=
        List.Pairwise.filter _ hMs
      have hqM : PigeonDao.quotesOf M =
          PigeonDao.sortedQuotesDesc (PigeonDao.quotesOf F) :=
        PigeonDao.quotes_eq_sortedDesc M _ hMs (hMF.map PigeonDao.qD)
      have hqMc : PigeonDao.quotesOf (M.filter (fun r => r.auction_id = aid)) =
          PigeonDao.sortedQuotesDesc (PigeonDao.quotesOf
            (F.filter (fun r => r.auction_id = aid))) :=
        PigeonDao.quotes_eq_sortedDesc _ _ hMcs
          ((hMF.filter _).map PigeonDao.qD)
      have ht1 := PigeonDao.top2fold_sorted (PigeonDao.quotesOf M)
        (PigeonDao.quotesOf_sorted M hMs) hposM
      have ht2 := PigeonDao.top2fold_sorted
        (PigeonDao.quotesOf (M.filter (fun r => r.auction_id = aid)))
        (PigeonDao.quotesOf_sorted _ hMcs) hposMc
      rw [ht1, ht2]
      have hlen : (M.filter (fun r => r.auction_id = aid)).length =
          (F.filter (fun r => r.auction_id = aid)).length :=
        (hMF.filter _).length_eq
      have hlen2 : M.length = F.length := hMF.length_eq
      have hsum : (PigeonDao.quotesOf
          (M.filter (fun r => r.auction_id = aid))).sum =
          (PigeonDao.quotesOf
            (F.filter (fun r => r.auction_id = aid))).sum :=
        ((hMF.filter _).map PigeonDao.qD).sum_eq
      have hsum2 : (PigeonDao.quotesOf M).sum = (PigeonDao.quotesOf F).sum :=
        (hMF.map PigeonDao.qD).sum_eq
      rw [hqM, hqMc] at *
      congr 1
      rw [PigeonDao.UserStats.mk.injEq]
      refine ⟨by rw [← hlen], by rw [← hsum], rfl, rfl,
        by rw [← hlen2], by rw [← hsum2], rfl, rfl⟩

/-- A small concrete deal-history table used to instantiate C4. -/
def wRow1 : PigeonDao.DealRow :=
  ⟨"GUGU007", "Li Ming", "p1", "r1", some 1500, 343, "done"⟩

def wRow2 : PigeonDao.DealRow :=
  ⟨"GUGU007", "Li Ming", "p2", "r2", some 1200, 7, "done"⟩

def wRow3 : PigeonDao.DealRow :=
  ⟨"GUGU007", "Zhang", "p3", "r3", some 900, 343, "done"⟩

def wTable : List PigeonDao.DealRow := [wRow1, wRow2, wRow3]

theorem query_bid_statistics_and_deals_correct_witness :
    ((PigeonDao.query_bid_statistics_and_deals wTable ["GUGU007"] 343
        ["done"] 100).2 "GUGU007").Perm
      ((wTable.filter (PigeonDao.rowMatch ["done"] "GUGU007")).map
        PigeonDao.toOut) :=
  (query_bid_statistics_and_deals_correct wTable ["GUGU007"] 343 ["done"]
    100 "GUGU007" (by decide)
    (by
      intro r hr
      simp [wTable, wRow1, wRow2, wRow3] at hr
      rcases hr with rfl | rfl | rfl <;> norm_num [PigeonDao.qD])
    (by decide)).1

namespace Enrichment

/-- `BidRecord` (src/mydataclass/record.py lines 18-76), restricted to
the fields this development needs.  It is a `slots=True` dataclass: it
has exactly the declared attributes, and in particular **no**
`auction_*_all` fields.  Defaults follow `DEFAULTS` (lines 53-76): the
four auction statistics fields default to `0` / `0.0`, `count` and
`results` to `None`.  `results` is always a single-key dict
`{user_code: rows}` (pigeon_bis_query.py lines 131, 199), modelled as an
optional key/value pair. -/
structure BidRecord where
  id : Option ℤ
  code : Option String
  auction_id : Option ℤ
  pigeon_id : Option ℤ
  quote : Option ℚ
  type : Option String := none
  user_id : Option ℤ := none
  user_code : Option String := none
  user_nickname : Option String := none
  count : Option ℤ := none
  results : Option (String × List PigeonDao.DealOut) := none
  auction_bid_count : Option ℤ := some 0
  auction_total_price : Option ℚ := some 0
  auction_highest_price : Option ℚ := some 0
  auction_second_highest_price : Option ℚ := some 0
  match_score : Option ℚ := none
  margin : Option ℚ := none
  status : Option String := none
  status_time : Option ℤ := none
deriving DecidableEq

/-- One upstream ledger dict after field mapping and conversion
(`FIELD_MAPPING` / `CONVERTERS`, record.py lines 78-133), holding the
typed values the mapped keys produce.  The per-field converter chain is
not re-modelled here; what this claim needs is which fields a
constructed record receives from the input and which come from
`DEFAULTS`. -/
structure RawBid where
  id : Option ℤ
  code : Option String
  auctionid : Option ℤ
  pigeonid : Option ℤ
  quote : Option ℚ
  type : Option String
  usercode : Option String
  usernickname : Option String
deriving DecidableEq

/-- `BidRecord.from_dict` on a mapped row: input fields are copied, all
enrichment fields keep their `DEFAULTS` values. -/
def fromDict (m : RawBid) : BidRecord :=
  { id := m.id, code := m.code, auction_id := m.auctionid,
    pigeon_id := m.pigeonid, quote := m.quote, type := m.type,
    user_code := m.usercode, user_nickname := m.usernickname }

/-- `BidRecord.from_list` (record.py lines 135-182): construct the
records, then set each record's `count` to the number of records in the
batch sharing its `user_code` (the `Counter` pass, lines 169-174). -/
def fromList (raws : List RawBid) : List BidRecord :=
  let objs := raws.map fromDict
  objs.map (fun o =>
    { o with
      count :=
        some (Int.ofNat (objs.countP (fun p => p.user_code = o.user_code))) })

/-- `PigeonService._extract_unique_online_user_codes`
(pigeon_bis_query.py lines 154-165): the sorted set of `user_code`s of
records with `type == "online"` and a truthy (present, nonempty)
`user_code`. -/
def extractUniqueOnlineUserCodes (records : List BidRecord) :
    List String :=
  List.insertionSort (fun a b : String => a ≤ b)
    ((records.filterMap (fun r =>
      if r.type = some "online" then
        match r.user_code with
        | some s => if s ≠ "" then some s else none
        | none => none
      else none)).dedup)

/-- `PigeonService._query_history_in_background` (pigeon_bis_query.py
lines 167-190).  Line 180 calls `self.dao.query_user_deal_records(...)`,
but `PigeonDao` (src/dao/pigeon_dao.py) defines no method of that name —
its history query is `query_bid_statistics_and_deals`, with a different
return shape — so the call raises `AttributeError`; the `except` at
lines 186-190 logs it and returns `{}`.  The returned map is therefore
empty whatever the database `db` contains. -/
def queryHistoryInBackground (db : List PigeonDao.DealRow)
    (userCodes : List String) : String → List PigeonDao.DealOut :=
  fun _ => []

/-- `PigeonService._inject_results_into_records` (lines 192-204):
`record.results = {record.user_code or "": result_map.get(uc, [])}`. -/
def injectResults (resultMap : String → List PigeonDao.DealOut)
    (r : BidRecord) : BidRecord :=
  let uc := r.user_code.getD ""
  { r with results := some (uc, resultMap uc) }

/-- `PigeonService._apply_custom_sort_rules_with_fuzzy` (lines 280-356)
at the record level: for each record it reads
`rows = (record.results or {}).get(uc, [])`, skips the record when the
rows are empty (`if not rows: continue`) and otherwise annotates and
re-sorts the rows in place; no other record field is written.  The row
transformation (difflib similarity annotation plus the stable sort of
the ranking step) is abstracted as `transformRows`. -/
def applyCustomSortRulesOne
    (transformRows : List PigeonDao.DealOut → List PigeonDao.DealOut)
    (r : BidRecord) : BidRecord :=
  let uc := r.user_code.getD ""
  let rows := match r.results with
    | some (k, rs) => if k = uc then rs else []
    | none => []
  if rows = [] then r
  else { r with results := some (uc, transformRows rows) }

def applyCustomSortRules
    (transformRows : List PigeonDao.DealOut → List PigeonDao.DealOut)
    (records : List BidRecord) : List BidRecord :=
  records.map (applyCustomSortRulesOne transformRows)

/-- `PigeonService.build_bid_records_with_history` (pigeon_bis_query.py
lines 111-149): construct the records, collect the online user codes,
query the deal history (see `queryHistoryInBackground`), inject the
per-record results and apply the ranking. -/
def buildBidRecordsWithHistory
    (transformRows : List PigeonDao.DealOut → List PigeonDao.DealOut)
    (db : List PigeonDao.DealRow) (rawBids : List RawBid)
    (compareName : Option String) : List BidRecord :=
  let records := fromList rawBids
  let userCodes := extractUniqueOnlineUserCodes records
  if userCodes = [] then
    records.map (fun r => { r with results := some (r.user_code.getD "", []) })
  else
    let resultMap := queryHistoryInBackground db userCodes
    let records2 := records.map (injectResults resultMap)
    applyCustomSortRules transformRows records2

/-- One item of the published snapshot, as built by `_one`
(src/pigeon_socket/adapters/bidrecord_payload.py lines 253-297),
restricted to the keys this claim is about.  The `auction_*_all` keys
read `getattr(r, "auction_bid_count_all", None)` etc.; `BidRecord` is a
`slots` dataclass without those attributes, so the `getattr` default
`None` is returned. -/
structure PayloadItem where
  id : Option ℤ
  code : Option String
  auction_id : Option ℤ
  pigeon_id : Option ℤ
  auction_bid_count : Option ℤ
  auction_total_price : Option ℚ
  auction_highest_price : Option ℚ
  auction_second_highest_price : Option ℚ
  auction_bid_count_all : Option ℤ
  auction_total_price_all : Option ℚ
  auction_highest_price_all : Option ℚ
  auction_second_highest_price_all : Option ℚ
  match_score : Option ℚ
  user_id : Option ℤ
  user_code : String
  user_nickname : Option String
  type : Option String
  margin : Option ℚ
  quote : Option ℚ
  count : Option ℤ
  status : Option String
  status_time : Option ℤ
  results : Option (String × List PigeonDao.DealOut)
  history : List PigeonDao.DealOut
deriving DecidableEq

/-- `_one` (bidrecord_payload.py lines 253-297). -/
def payloadOne (r : BidRecord) : PayloadItem :=
  let uc := r.user_code.getD ""
  { id := r.id, code := r.code, auction_id := r.auction_id,
    pigeon_id := r.pigeon_id,
    auction_bid_count := r.auction_bid_count,
    auction_total_price := r.auction_total_price,
    auction_highest_price := r.auction_highest_price,
    auction_second_highest_price := r.auction_second_highest_price,
    auction_bid_count_all := none,
    auction_total_price_all := none,
    auction_highest_price_all := none,
    auction_second_highest_price_all := none,
    match_score := r.match_score, user_id := r.user_id,
    user_code := uc, user_nickname := r.user_nickname,
    type := r.type, margin := r.margin, quote := r.quote,
    count := r.count, status := r.status, status_time := r.status_time,
    results := r.results,
    history := match r.results with
      | some (k, rs) => if k = uc then rs else []
      | none => [] }

theorem fromList_defaults (raws : List RawBid) :
    ∀ r ∈ fromList raws,
      r.auction_bid_count = some 0 ∧ r.auction_total_price = some 0 ∧
      r.auction_highest_price = some 0 ∧
      r.auction_second_highest_price = some 0 ∧ r.results = none := by
  intro r hr
  unfold fromList at hr
  rw [List.mem_map] at hr
  obtain ⟨o, ho, rfl⟩ := hr
  rw [List.mem_map] at ho
  obtain ⟨m, _, rfl⟩ := ho
  exact ⟨rfl, rfl, rfl, rfl, rfl⟩

end Enrichment

namespace Enrichment

theorem record_shape_conjuncts (r0 : BidRecord) (uc : String)
    (h1 : r0.auction_bid_count = some 0)
    (h2 : r0.auction_total_price = some 0)
    (h3 : r0.auction_highest_price = some 0)
    (h4 : r0.auction_second_highest_price = some 0) :
    ({ r0 with results := some (uc, []) } : BidRecord).auction_bid_count =
        some 0 ∧
    ({ r0 with results := some (uc, []) } : BidRecord).auction_total_price =
        some 0 ∧
    ({ r0 with results := some (uc, []) } :
        BidRecord).auction_highest_price = some 0 ∧
    ({ r0 with results := some (uc, []) } :
        BidRecord).auction_second_highest_price = some 0 ∧
    (∀ k rs, ({ r0 with results := some (uc, []) } : BidRecord).results =
        some (k, rs) → rs = []) ∧
    (payloadOne { r0 with results := some (uc, []) }).auction_bid_count =
        some 0 ∧
    (payloadOne { r0 with results := some (uc, []) }).auction_bid_count_all =
        none ∧
    (payloadOne { r0 with
        results := some (uc, []) }).auction_total_price_all = none ∧
    (payloadOne { r0 with
        results := some (uc, []) }).auction_highest_price_all = none ∧
    (payloadOne { r0 with
        results := some (uc, []) }).auction_second_highest_price_all =
        none ∧
    (payloadOne { r0 with results := some (uc, []) }).history = [] := by
  refine ⟨h1, h2, h3, h4, ?_, h1, rfl, rfl, rfl, rfl, ?_⟩
  · intro k rs h
    simp at h
    exact h.2
  · simp [payloadOne]

end Enrichment

/-- C1: refuted by the code.  The enrichment never populates the eight
aggregate fields: `build_bid_records_with_history` calls
`self.dao.query_user_deal_records` (pigeon_bis_query.py line 180), a
method `PigeonDao` does not define, and the swallowed `AttributeError`
(lines 186-190) leaves the result map empty; nothing anywhere assigns
`auction_bid_count` … `auction_second_highest_price`, which keep their
constructed defaults `0` / `0.0`, the history lists in `results` stay
empty, and the `slots` dataclass has no `auction_*_all` attributes at
all, so `_one` publishes `None` for all four `_all` keys — for every
input ledger, every database content and every bidder with historical
deals. -/
theorem enrichment_fields_never_populated
    (transformRows : List PigeonDao.DealOut → List PigeonDao.DealOut)
    (db : List PigeonDao.DealRow) (rawBids : List Enrichment.RawBid)
    (compareName : Option String) (r : Enrichment.BidRecord)
    (hr : r ∈ Enrichment.buildBidRecordsWithHistory transformRows db
      rawBids compareName) :
    r.auction_bid_count = some 0 ∧
    r.auction_total_price = some 0 ∧
    r.auction_highest_price = some 0 ∧
    r.auction_second_highest_price = some 0 ∧
    (∀ k rs, r.results = some (k, rs) → rs = []) ∧
    (Enrichment.payloadOne r).auction_bid_count = some 0 ∧
    (Enrichment.payloadOne r).auction_bid_count_all = none ∧
    (Enrichment.payloadOne r).auction_total_price_all = none ∧
    (Enrichment.payloadOne r).auction_highest_price_all = none ∧
    (Enrichment.payloadOne r).auction_second_highest_price_all = none ∧
    (Enrichment.payloadOne r).history = [] := by
  unfold Enrichment.buildBidRecordsWithHistory at hr
  dsimp only at hr
  by_cases hcodes : Enrichment.extractUniqueOnlineUserCodes
      (Enrichment.fromList rawBids) = []
  · rw [if_pos hcodes, List.mem_map] at hr
    obtain ⟨r1, hr1, rfl⟩ := hr
    have hd := Enrichment.fromList_defaults rawBids r1 hr1
    exact Enrichment.record_shape_conjuncts r1 (r1.user_code.getD "")
      hd.1 hd.2.1 hd.2.2.1 hd.2.2.2.1
  · rw [if_neg hcodes] at hr
    unfold Enrichment.applyCustomSortRules at hr
    rw [List.mem_map] at hr
    obtain ⟨r2, hr2, rfl⟩ := hr
    rw [List.mem_map] at hr2
    obtain ⟨r1, hr1, rfl⟩ := hr2
    have hd := Enrichment.fromList_defaults rawBids r1 hr1
    have hinj : Enrichment.injectResults
        (Enrichment.queryHistoryInBackground db
          (Enrichment.extractUniqueOnlineUserCodes
            (Enrichment.fromList rawBids))) r1 =
        { r1 with results := some (r1.user_code.getD "", []) } := rfl
    rw [hinj]
    have hstep : Enrichment.applyCustomSortRulesOne transformRows
        { r1 with results := some (r1.user_code.getD "", []) } =
        { r1 with results := some (r1.user_code.getD "", []) } := by
      unfold Enrichment.applyCustomSortRulesOne
      dsimp only
      rw [ite_self]
      simp
    rw [hstep]
    exact Enrichment.record_shape_conjuncts r1 (r1.user_code.getD "")
      hd.1 hd.2.1 hd.2.2.1 hd.2.2.2.1

/-- The concrete failing input: one online bid by `GUGU007` while the
store holds a completed deal for `GUGU007`. -/
def c1Raw : Enrichment.RawBid :=
  ⟨some 1, some "B1", some 343, some 187099, none, some "online",
   some "GUGU007", some "nick"⟩

def c1Db : List PigeonDao.DealRow :=
  [⟨"GUGU007", "Li Ming", "p1", "r1", none, 343, "done"⟩]

/-- The record the pipeline actually produces for `c1Raw`. -/
def c1Rec : Enrichment.BidRecord :=
  { id := some 1, code := some "B1", auction_id := some 343,
    pigeon_id := some 187099, quote := none, type := some "online",
    user_code := some "GUGU007", user_nickname := some "nick",
    count := some 1, results := some ("GUGU007", []) }

theorem enrichment_fields_never_populated_witness :
    c1Rec.auction_bid_count = some 0 ∧
    c1Rec.auction_total_price = some 0 ∧
    c1Rec.auction_highest_price = some 0 ∧
    c1Rec.auction_second_highest_price = some 0 ∧
    (∀ k rs, c1Rec.results = some (k, rs) → rs = []) ∧
    (Enrichment.payloadOne c1Rec).auction_bid_count = some 0 ∧
    (Enrichment.payloadOne c1Rec).auction_bid_count_all = none ∧
    (Enrichment.payloadOne c1Rec).auction_total_price_all = none ∧
    (Enrichment.payloadOne c1Rec).auction_highest_price_all = none ∧
    (Enrichment.payloadOne c1Rec).auction_second_highest_price_all =
      none ∧
    (Enrichment.payloadOne c1Rec).history = [] :=
  enrichment_fields_never_populated (fun rs => rs) c1Db [c1Raw]
    (some "Li Ming") c1Rec (List.Mem.head _)
